import Mathlib

/-!
# Verification of the gorilla-malloc allocator specification

The repository ships the test suite `src/test/suites/test-gorilla-malloc.c`
(and a trivial syscall helper); the allocator engine itself
(`gmalloc/gorilla-malloc.c`) is not part of the source tree given here.
Consequently the allocator operations below are *modelled from the spec*
(sections 4.1-4.8 of `spec.md`), while the test-side helpers (`mem_test`,
`malloc_and_mark`, `realloc_and_remark`, `check_marked_mem`) are embedded
from the test source.

Modelling conventions:
* Addresses and sizes are `Nat`; the null pointer is `0`.
* A heap operation that may fail returns `Heap × Option Nat` — the heap after
  the call and the user pointer (or `none` for a null return), mirroring the
  C signatures `void *gorilla_malloc(heap, size)` etc.
* Byte contents of a block payload are carried as a `List Nat` on the block.
* The OS memory provider is modelled by a budget of pages (`osPages`) the OS
  is still willing to grant, and a bump address (`nextBase`) at which fresh
  page-aligned regions are handed out.
-/

namespace Gorilla

/-- Modelled from the spec (§4.3): user payloads are aligned to at least the
natural word size; we use the 64-bit word, 8 bytes. -/
def WORD : Nat := 8

/-- Modelled from the spec (§4.3): the in-band header is a fixed-layout record
placed immediately before the payload; all header sizes are multiples of the
word alignment.  We fix it at 32 bytes. -/
def HDR : Nat := 32

/-- Modelled from the spec (§4.4/§4.5): the minimum viable block is a header
plus at least one word of payload. -/
def MIN_PAYLOAD : Nat := 8

/-- Modelled from the spec (§4.5): the minimum splittable residual,
header + min_payload, aligned. -/
def MIN_BLOCK : Nat := HDR + MIN_PAYLOAD

/-- Round `m` up to the next multiple of the word size. -/
def alignUp (m : Nat) : Nat := ((m + (WORD - 1)) / WORD) * WORD

/-- Ceiling division. -/
def ceilDiv (a b : Nat) : Nat := (a + b - 1) / b

/-- Modelled from the spec (§4.5): the effective block size of a request,
`B = round_up(header + max(n, min_payload), word_align)`. -/
def blockSize (n : Nat) : Nat := alignUp (HDR + max n MIN_PAYLOAD)

/-- A managed block: header address, total size (header + payload + padding),
recorded payload size, free flag, and the payload byte contents (tracked only
while the block is in use). -/
structure Block where
  addr : Nat
  total : Nat
  payload : Nat
  free : Bool
  data : List Nat
deriving Repr, DecidableEq

/-- An OS-backed region: base address, size in pages, and its classification
(arena region vs. dedicated large-block region), holding its chain of blocks
in physical (address) order. -/
structure Region where
  base : Nat
  pages : Nat
  large : Bool
  blocks : List Block
deriving Repr, DecidableEq

/-- The heap handle: page size discovered at init, the region registry, and
the OS memory provider model (bump address for fresh regions, remaining
page budget). -/
structure Heap where
  pageSize : Nat
  regions : List Region
  nextBase : Nat
  osPages : Nat
deriving Repr, DecidableEq

/-- Modelled from the spec (§4.8): `init()` returns a heap with an empty
region registry and an empty free index, with the page size snapshot.  The
OS environment (page budget) is an explicit parameter of the model. -/
def gorilla_heap_init (pageSize osPages : Nat) : Heap :=
  { pageSize := pageSize, regions := [], nextBase := pageSize, osPages := osPages }

/-- The user pointer of a block: its header address plus the header size. -/
def Block.userPtr (b : Block) : Nat := b.addr + HDR

/-- A fresh free block spanning `[addr, addr+total)`. -/
def mkFree (addr total : Nat) : Block :=
  { addr := addr, total := total, payload := total - HDR, free := true, data := [] }

/-- A fresh in-use block with payload size `n` and zeroed payload bytes. -/
def mkUsed (addr total n : Nat) : Block :=
  { addr := addr, total := total, payload := n, free := false,
    data := List.replicate n 0 }

/-- Modelled from the spec (§4.5): carve a head of size `B` for a request of
`n` payload bytes from a free block; if the residual is at least the minimum
splittable block, split off a tail free block, otherwise hand out the whole
block. -/
def splitBlock (b : Block) (B n : Nat) : List Block :=
  if MIN_BLOCK ≤ b.total - B then
    [mkUsed b.addr B n, mkFree (b.addr + B) (b.total - B)]
  else
    [mkUsed b.addr b.total n]

/-- First-fit scan of one region's block chain for a free block of total size
at least `B`; returns the updated chain and the user pointer on success.
Modelled from the spec (§4.4): the segregated-bucket organization is a policy
knob; we realize the lookup as first-fit in physical order, which coincides
with the bucket policy on every state the claims exercise (at most one
admissible free block). -/
def allocInBlocks (B n : Nat) : List Block → Option (List Block × Nat)
  | [] => none
  | b :: bs =>
    if b.free = true ∧ B ≤ b.total then
      some (splitBlock b B n ++ bs, b.addr + HDR)
    else
      match allocInBlocks B n bs with
      | some (bs', p) => some (b :: bs', p)
      | none => none

/-- First-fit scan over the region registry (registry order). -/
def allocInRegions (B n : Nat) : List Region → Option (List Region × Nat)
  | [] => none
  | r :: rs =>
    match allocInBlocks B n r.blocks with
    | some (bs, p) => some ({ r with blocks := bs } :: rs, p)
    | none =>
      match allocInRegions B n rs with
      | some (rs', p) => some (r :: rs', p)
      | none => none

/-- Modelled from the spec (§4.2): arena regions are acquired at a
granularity of 16 pages to amortize OS calls. -/
def ARENA_PAGES : Nat := 16

/-- Modelled from the spec (§4.5): requests whose effective block size
exceeds the arena threshold (a policy constant tied to page size) take the
dedicated large-block path.  We fix the threshold at 4 pages, which routes
the 8-page test allocation to the large path and keeps 2-page and smaller
allocations in the arena. -/
def arenaThreshold (pageSize : Nat) : Nat := 4 * pageSize

/-- Modelled from the spec (§4.5, §4.2): `allocate(heap, n)`.
Dispatch on the effective block size: the large path acquires a dedicated
region holding a single in-use block; the arena path first-fits the free
blocks, and if nothing fits acquires a fresh arena region (16-page
granularity) and carves the request from its initial free block.  On OS
refusal the heap is returned untouched and the result pointer is `none`
(the null return). -/
def gorilla_malloc (h : Heap) (n : Nat) : Heap × Option Nat :=
  let B := blockSize n
  if arenaThreshold h.pageSize < B then
    let pages := ceilDiv B h.pageSize
    if pages ≤ h.osPages then
      ({ pageSize := h.pageSize,
         regions := h.regions ++
           [{ base := h.nextBase, pages := pages, large := true,
              blocks := [mkUsed h.nextBase (pages * h.pageSize) n] }],
         nextBase := h.nextBase + pages * h.pageSize,
         osPages := h.osPages - pages },
       some (h.nextBase + HDR))
    else (h, none)
  else
    match allocInRegions B n h.regions with
    | some (rs, p) => ({ h with regions := rs }, some p)
    | none =>
      let pages := ARENA_PAGES * ceilDiv B (ARENA_PAGES * h.pageSize)
      if pages ≤ h.osPages then
        ({ pageSize := h.pageSize,
           regions := h.regions ++
             [{ base := h.nextBase, pages := pages, large := false,
                blocks := splitBlock (mkFree h.nextBase (pages * h.pageSize)) B n }],
           nextBase := h.nextBase + pages * h.pageSize,
           osPages := h.osPages - pages },
         some (h.nextBase + HDR))
      else (h, none)

/-- Merge two physically adjacent free blocks. -/
def mergeBlk (b1 b2 : Block) : Block := mkFree b1.addr (b1.total + b2.total)

/-- Modelled from the spec (§4.6): eager coalescing — no two physically
adjacent free blocks coexist after the pass.  The spec's free merges the
just-freed block with each free neighbor; on any heap with no other adjacent
free pair this global right-fold computes the same chain. -/
def coalesce : List Block → List Block
  | [] => []
  | b :: bs =>
    match coalesce bs with
    | [] => [b]
    | b2 :: rest =>
      if b.free = true ∧ b2.free = true ∧ b.addr + b.total = b2.addr then
        mergeBlk b b2 :: rest
      else
        b :: b2 :: rest

/-- The in-use user pointers of a block chain, in physical order. -/
def inUsePtrsB : List Block → List Nat
  | [] => []
  | b :: bs => if b.free = true then inUsePtrsB bs else (b.addr + HDR) :: inUsePtrsB bs

/-- The in-use user pointers of a region registry, in registry order. -/
def inUsePtrsR : List Region → List Nat
  | [] => []
  | r :: rs => inUsePtrsB r.blocks ++ inUsePtrsR rs

/-- All outstanding (in-use) user pointers of a heap. -/
def inUsePtrs (h : Heap) : List Nat := inUsePtrsR h.regions

/-- Mark free the first in-use block whose user pointer is `p`. -/
def markFree (p : Nat) : List Block → List Block
  | [] => []
  | b :: bs =>
    if b.free = false ∧ b.addr + HDR = p then
      mkFree b.addr b.total :: bs
    else
      b :: markFree p bs

/-- Modelled from the spec (§4.6): deallocation.  The region holding the
pointer is located; a large-block region is released to the OS as a whole;
in an arena region the block is marked free and coalesced with its free
physical neighbors.  (Step 5's empty-region policy election: we keep a fully
free arena region for reuse, the alternative the spec offers.) -/
def freeInRegions (p : Nat) : List Region → List Region
  | [] => []
  | r :: rs =>
    if p ∈ inUsePtrsB r.blocks then
      if r.large = true then rs
      else { r with blocks := coalesce (markFree p r.blocks) } :: rs
    else r :: freeInRegions p rs

/-- Modelled from the spec (§4.6): `deallocate(heap, p)`; null is a no-op. -/
def gorilla_free (h : Heap) (p : Nat) : Heap :=
  if p = 0 then h else { h with regions := freeInRegions p h.regions }

/-- Truncate or zero-extend a byte list to length `n` (the bytes kept by an
in-place resize, or copied by a moving realloc plus uninitialized zeros). -/
def resizeData (l : List Nat) (n : Nat) : List Nat :=
  l.take n ++ List.replicate (n - l.length) 0

/-- Result of searching a block chain for an in-place reallocation. -/
inductive ReallocRes where
  | notFound : ReallocRes
  | inPlace (bs : List Block) : ReallocRes
  | needsMove (oldData : List Nat) : ReallocRes
deriving Repr

/-- Modelled from the spec (§4.7): in-place reallocation within an arena
chain.  Shrink in place when the new block size fits in the current total
(splitting off a trailing free block, coalesced with a free next neighbor,
when the residual is splittable); grow in place when the next-physical
neighbor is free and large enough, absorbing the needed prefix; otherwise
report the payload bytes to move. -/
def reallocInBlocks (p B n : Nat) : List Block → ReallocRes
  | [] => .notFound
  | b :: bs =>
    if b.free = false ∧ b.addr + HDR = p then
      if B ≤ b.total then
        if MIN_BLOCK ≤ b.total - B then
          .inPlace ({ b with total := B, payload := n, data := resizeData b.data n }
            :: coalesce (mkFree (b.addr + B) (b.total - B) :: bs))
        else
          .inPlace ({ b with payload := n, data := resizeData b.data n } :: bs)
      else
        match bs with
        | b2 :: rest =>
          if b2.free = true ∧ b.addr + b.total = b2.addr ∧ B ≤ b.total + b2.total then
            if MIN_BLOCK ≤ b.total + b2.total - B then
              .inPlace ({ b with total := B, payload := n, data := resizeData b.data n }
                :: mkFree (b.addr + B) (b.total + b2.total - B) :: rest)
            else
              .inPlace
                ({ b with
                    total := b.total + b2.total, payload := n,
                    data := resizeData b.data n } :: rest)
          else .needsMove b.data
        | [] => .needsMove b.data
    else
      match reallocInBlocks p B n bs with
      | .notFound => .notFound
      | .inPlace bs' => .inPlace (b :: bs')
      | .needsMove d => .needsMove d

/-- Result of searching the registry for an in-place reallocation. -/
inductive ReallocResR where
  | notFound : ReallocResR
  | inPlace (rs : List Region) : ReallocResR
  | needsMove (oldData : List Nat) : ReallocResR
deriving Repr

/-- Attempt the in-place rules on one region's chain; a large-block region is
resized in place when the new block size still fits its single block (the
spec does not extend large regions via the OS).  Modelled from the spec
(§4.7). -/
def reallocInRegion (p B n : Nat) (r : Region) : ReallocRes :=
  if r.large = true then
    match r.blocks with
    | [b] =>
      if b.free = false ∧ b.addr + HDR = p then
        if B ≤ b.total then
          .inPlace [{ b with payload := n, data := resizeData b.data n }]
        else .needsMove b.data
      else .notFound
    | _ => .notFound
  else reallocInBlocks p B n r.blocks

/-- Search the registry (registry order) for the block at `p` and attempt
the in-place reallocation rules. -/
def reallocInRegions (p B n : Nat) : List Region → ReallocResR
  | [] => .notFound
  | r :: rs =>
    match reallocInRegion p B n r with
    | .inPlace bs => .inPlace ({ r with blocks := bs } :: rs)
    | .needsMove d => .needsMove d
    | .notFound =>
      match reallocInRegions p B n rs with
      | .notFound => .notFound
      | .inPlace rs' => .inPlace (r :: rs')
      | .needsMove d => .needsMove d

/-- First in-use block of a chain whose user pointer is `p`. -/
def findInUseB (p : Nat) : List Block → Option Block
  | [] => none
  | b :: bs => if b.free = false ∧ b.addr + HDR = p then some b else findInUseB p bs

/-- First in-use block of the registry whose user pointer is `p`. -/
def findInUseR (p : Nat) : List Region → Option Block
  | [] => none
  | r :: rs =>
    match findInUseB p r.blocks with
    | some b => some b
    | none => findInUseR p rs

/-- The block backing the user pointer `p`, when `p` is outstanding. -/
def findInUse (h : Heap) (p : Nat) : Option Block := findInUseR p h.regions

/-- Overwrite the leading payload bytes of a block with `bs` (bounded by the
block's payload size). -/
def overwrite (b : Block) (bs : List Nat) : Block :=
  { b with data := bs.take b.payload ++ b.data.drop (min bs.length b.payload) }

/-- Write `bs` through user pointer `p`: update the first in-use block at
`p`. -/
def writeBytesB (p : Nat) (bs : List Nat) : List Block → List Block
  | [] => []
  | b :: bl =>
    if b.free = false ∧ b.addr + HDR = p then overwrite b bs :: bl
    else b :: writeBytesB p bs bl

/-- Write `bs` through user pointer `p` in the registry. -/
def writeBytesR (p : Nat) (bs : List Nat) : List Region → List Region
  | [] => []
  | r :: rs =>
    match findInUseB p r.blocks with
    | some _ => { r with blocks := writeBytesB p bs r.blocks } :: rs
    | none => r :: writeBytesR p bs rs

/-- A store through a user pointer: the caller writes `bs` to the payload
starting at `p`. -/
def writeBytes (h : Heap) (p : Nat) (bs : List Nat) : Heap :=
  { h with regions := writeBytesR p bs h.regions }

/-- A load through a user pointer: the first `n` payload bytes at `p`. -/
def readBytes (h : Heap) (p : Nat) (n : Nat) : List Nat :=
  match findInUse h p with
  | some b => b.data.take n
  | none => []

/-- Modelled from the spec (§4.7): `reallocate(heap, p, n)`.
Null `p` behaves as allocation; `n = 0` deallocates and returns null (the
result `some 0` encodes the non-failure null return); otherwise the in-place
rules are tried first and the fallback allocates a new block, copies
`min(old_payload, n)` bytes, and deallocates the old block.  Every failure
(`none`) leaves the heap exactly as it was. -/
def gorilla_realloc (h : Heap) (p n : Nat) : Heap × Option Nat :=
  if p = 0 then gorilla_malloc h n
  else if n = 0 then (gorilla_free h p, some 0)
  else
    match reallocInRegions p (blockSize n) n h.regions with
    | .inPlace rs => ({ h with regions := rs }, some p)
    | .notFound => (h, none)
    | .needsMove oldData =>
      match gorilla_malloc h n with
      | (h1, some q) =>
        let h2 := writeBytes h1 q (resizeData oldData n)
        (gorilla_free h2 p, some q)
      | (h1, none) => (h1, none)

/-- The element following the first occurrence of `c` in `l`. -/
def nextAfter (c : Nat) : List Nat → Option Nat
  | [] => none
  | [_] => none
  | x :: y :: rest => if x = c then some y else nextAfter c (y :: rest)

/-- Modelled from the spec (§4.8): `check_leaks(heap, cursor)` enumerates the
currently in-use blocks; a null cursor starts the walk and the terminal
marker is the null return. -/
def gorilla_malloc_check_leaks (h : Heap) (cursor : Option Nat) : Option Nat :=
  match cursor with
  | none => (inUsePtrs h).head?
  | some c => nextAfter c (inUsePtrs h)

/-- Total pages currently owned by the heap. -/
def ownedPages (h : Heap) : Nat := (h.regions.map Region.pages).sum

/-- Modelled from the spec (§4.8): `destroy(heap)` releases every region
still owned and returns success (zero) unconditionally. -/
def gorilla_heap_destroy (h : Heap) : Nat × Heap :=
  (0, { pageSize := h.pageSize, regions := [],
        nextBase := h.nextBase, osPages := h.osPages + ownedPages h })

/-! ## Test-suite helpers, embedded from `src/test/suites/test-gorilla-malloc.c` -/

/-- The byte pattern written by `mem_test`: byte `i` is `i & 0xFF`, i.e.
`i % 256`. -/
def testPattern (size : Nat) : List Nat := (List.range size).map (fun i => i % 256)

/-- `mem_test(ptr, size)` from the test source: write `i & 0xFF` to each of
the `size` bytes, then verify each byte reads back unchanged. -/
def mem_test (h : Heap) (p : Nat) (size : Nat) : Bool :=
  readBytes (writeBytes h p (testPattern size)) p size == testPattern size

/-- `sizeof(struct marked_mem)`: a `size_t` length field (8 bytes) followed
by a flexible array of pointers (8 bytes each), from the test source. -/
def SIZEOF_MARKED_MEM : Nat := 8

/-- The `struct marked_mem` view of an allocation in the test source: the
struct's address (the user pointer), its `len` field, and the pointer value
held by each slot `mem[i]`. -/
structure MarkedMem where
  addr : Nat
  len : Nat
  mem : List Nat
deriving Repr, DecidableEq

/-- The address `&m->mem[i]`: the struct address plus the 8-byte `len` field
plus `i` pointer slots. -/
def MarkedMem.slotAddr (m : MarkedMem) (i : Nat) : Nat := m.addr + 8 + 8 * i

/-- The marking loop of `malloc_and_mark`/`realloc_and_remark`: set
`len = (size - sizeof(struct marked_mem)) / sizeof(void*)` and store in each
slot its own address. -/
def markMem (p size : Nat) : MarkedMem :=
  { addr := p, len := (size - SIZEOF_MARKED_MEM) / 8,
    mem := (List.range ((size - SIZEOF_MARKED_MEM) / 8)).map
      (fun i => p + 8 + 8 * i) }

/-- `malloc_and_mark(heap, size)` from the test source: reject sizes below
`sizeof(struct marked_mem)`, allocate, then write the marks. -/
def malloc_and_mark (h : Heap) (size : Nat) : Heap × Option MarkedMem :=
  if size < SIZEOF_MARKED_MEM then (h, none)
  else
    match gorilla_malloc h size with
    | (h', some p) => (h', some (markMem p size))
    | (h', none) => (h', none)

/-- `realloc_and_remark(heap, mem, size)` from the test source. -/
def realloc_and_remark (h : Heap) (m : MarkedMem) (size : Nat) :
    Heap × Option MarkedMem :=
  if size < SIZEOF_MARKED_MEM then (h, none)
  else
    match gorilla_realloc h m.addr size with
    | (h', some p) => (h', some (markMem p size))
    | (h', none) => (h', none)

/-- `check_marked_mem(mem)` from the test source: every slot `mem[i]`,
`i < len`, holds its own address. -/
def check_marked_mem (m : MarkedMem) : Bool :=
  (List.range m.len).all (fun i => m.mem.getD i 0 == m.slotAddr i)

/-! ## Heap well-formedness

The structural invariants of §3 of the spec: within a region the blocks tile
it exactly (each block starts where the previous ends), every block can hold
a header plus a word, an in-use block carries exactly its payload bytes, and
regions are laid out disjointly below the bump address.  A large-block
region holds exactly one block, which is in use. -/

/-- Chain check for a block list starting at address `cur`. -/
def blocksWf : Nat → List Block → Bool
  | _, [] => true
  | cur, b :: bs =>
    decide (b.addr = cur) && decide (MIN_BLOCK ≤ b.total) &&
    (b.free || decide (b.data.length = b.payload)) && blocksWf (cur + b.total) bs

/-- The address one past the end of a block chain (`cur` when empty). -/
def blocksEnd : Nat → List Block → Nat
  | cur, [] => cur
  | _, b :: bs => blocksEnd (b.addr + b.total) bs

/-- A large-block region holds exactly one block, which is in use. -/
def singleUsed : List Block → Bool
  | [b] => !b.free
  | _ => false

/-- Regions are ordered, disjoint, chain-tiled and end at or below `bound`. -/
def regionsWf (bound : Nat) : Nat → List Region → Bool
  | cur, [] => decide (cur ≤ bound)
  | cur, r :: rs =>
    decide (cur ≤ r.base) && (!r.large || singleUsed r.blocks) &&
    blocksWf r.base r.blocks &&
    regionsWf bound (blocksEnd r.base r.blocks) rs

/-- Well-formedness of a heap state. -/
def heapWf (h : Heap) : Bool :=
  decide (0 < h.pageSize) && regionsWf h.nextBase 0 h.regions

/-! ## Operation traces

The driver model for the leak-check claim: a sequence of
allocate/reallocate/free requests issued against one heap, together with the
list of currently live (not yet freed) user pointers.  Free and reallocate
are issued only against live pointers and nonzero sizes, as the test driver
does. -/

/-- One request of the driver. -/
inductive Op where
  | alloc : Nat → Op
  | reall : Nat → Nat → Op
  | free : Nat → Op
deriving Repr, DecidableEq

/-- Issue one request against the heap, tracking the live pointer list. -/
def runOp : Heap × List Nat → Op → Heap × List Nat
  | (h, L), .alloc n =>
    match gorilla_malloc h n with
    | (h', some p) => (h', p :: L)
    | (h', none) => (h', L)
  | (h, L), .free p =>
    if p ∈ L then (gorilla_free h p, L.erase p) else (h, L)
  | (h, L), .reall p n =>
    if p ∈ L ∧ n ≠ 0 then
      match gorilla_realloc h p n with
      | (h', some q) => (h', q :: L.erase p)
      | (h', none) => (h', L)
    else (h, L)

/-- Run a request sequence from a fresh heap with no live pointers. -/
def runOps (P os : Nat) (ops : List Op) : Heap × List Nat :=
  ops.foldl runOp (gorilla_heap_init P os, [])

/-- A run of repeated `allocate(128)` calls; `allocRun h i` is the state of
the `i`-th call (counting from 0), as in `test_can_merge`. -/
def allocRun (h : Heap) : Nat → Heap × Option Nat
  | 0 => gorilla_malloc h 128
  | k + 1 => allocRun (gorilla_malloc h 128).1 k

/-- The payload size recorded for the outstanding pointer `p` (0 if none). -/
def payloadAt (h : Heap) (p : Nat) : Nat :=
  match findInUse h p with
  | some b => b.payload
  | none => 0

/-- The heap after `allocate(128)` on a fresh heap with page size `P` (for
`8 ∣ P`, `1024 ≤ P`, `16 ≤ os`): one 16-page arena region split into the
160-byte in-use block and the free remainder. -/
def heapA (P os : Nat) : Heap :=
  { pageSize := P
    regions := [{ base := P
                  pages := 16
                  large := false
                  blocks := [mkUsed P 160 128, mkFree (P + 160) (16 * P - 160)] }]
    nextBase := P + 16 * P
    osPages := os - 16 }

/-- The heap after `allocate(P)` (one page) on a fresh heap with page size
`P`: one 16-page arena region split into a `(HDR + P)`-byte in-use block and
the free remainder. -/
def heapAp (P os : Nat) : Heap :=
  { pageSize := P
    regions := [{ base := P
                  pages := 16
                  large := false
                  blocks := [mkUsed P (HDR + P) P,
                             mkFree (P + (HDR + P)) (16 * P - (HDR + P))] }]
    nextBase := P + 16 * P
    osPages := os - 16 }

/-- The heap of `heapA` after growing the 128-byte block in place to 256
bytes. -/
def heapB (P os : Nat) : Heap :=
  { pageSize := P
    regions := [{ base := P
                  pages := 16
                  large := false
                  blocks := [mkUsed P 288 256, mkFree (P + 288) (16 * P - 288)] }]
    nextBase := P + 16 * P
    osPages := os - 16 }

/-- The heap of `heapA` after a second `allocate(128)`. -/
def heapA2 (P os : Nat) : Heap :=
  { pageSize := P
    regions := [{ base := P
                  pages := 16
                  large := false
                  blocks := [mkUsed P 160 128, mkUsed (P + 160) 160 128,
                             mkFree (P + 160 + 160) (16 * P - 160 - 160)] }]
    nextBase := P + 16 * P
    osPages := os - 16 }

/-- The heap of `heapAp` after growing the one-page block in place to four
pages. -/
def heapC (P os : Nat) : Heap :=
  { pageSize := P
    regions := [{ base := P
                  pages := 16
                  large := false
                  blocks := [mkUsed P (32 + 4 * P) (4 * P),
                             mkFree (P + (32 + 4 * P)) (12 * P - 32)] }]
    nextBase := P + 16 * P
    osPages := os - 16 }

/-- The heap of `heapA2` after freeing the first 128-byte block. -/
def heapF1 (P os : Nat) : Heap :=
  { pageSize := P
    regions := [{ base := P
                  pages := 16
                  large := false
                  blocks := [mkFree P 160, mkUsed (P + 160) 160 128,
                             mkFree (P + 160 + 160) (16 * P - 160 - 160)] }]
    nextBase := P + 16 * P
    osPages := os - 16 }

/-- The heap of `heapF1` after freeing the second 128-byte block: the three
blocks coalesce into one free block spanning the arena region. -/
def heapF2 (P os : Nat) : Heap :=
  { pageSize := P
    regions := [{ base := P
                  pages := 16
                  large := false
                  blocks := [mkFree P (160 + (160 + (16 * P - 160 - 160)))] }]
    nextBase := P + 16 * P
    osPages := os - 16 }

/-- The heap of `heapA2` after the test pattern is written through the first
block's user pointer. -/
def heapA2w (P os : Nat) : Heap :=
  { pageSize := P
    regions := [{ base := P
                  pages := 16
                  large := false
                  blocks := [{ addr := P, total := 160, payload := 128, free := false,
                               data := testPattern 128 },
                             mkUsed (P + 160) 160 128,
                             mkFree (P + 160 + 160) (16 * P - 160 - 160)] }]
    nextBase := P + 16 * P
    osPages := os - 16 }

/-- The heap of `heapA2w` after the fallback allocation of 256 bytes carved
from the trailing free block. -/
def heapE (P os : Nat) : Heap :=
  { pageSize := P
    regions := [{ base := P
                  pages := 16
                  large := false
                  blocks := [{ addr := P, total := 160, payload := 128, free := false,
                               data := testPattern 128 },
                             mkUsed (P + 160) 160 128,
                             mkUsed (P + 160 + 160) 288 256,
                             mkFree (P + 160 + 160 + 288)
                               (16 * P - 160 - 160 - 288)] }]
    nextBase := P + 16 * P
    osPages := os - 16 }

/-- The heap of `heapE` after the moving reallocate copies the old payload
into the new block. -/
def heapEw (P os : Nat) : Heap :=
  { pageSize := P
    regions := [{ base := P
                  pages := 16
                  large := false
                  blocks := [{ addr := P, total := 160, payload := 128, free := false,
                               data := testPattern 128 },
                             mkUsed (P + 160) 160 128,
                             { addr := P + 160 + 160, total := 288, payload := 256,
                               free := false,
                               data := resizeData (testPattern 128) 256 },
                             mkFree (P + 160 + 160 + 288)
                               (16 * P - 160 - 160 - 288)] }]
    nextBase := P + 16 * P
    osPages := os - 16 }

/-- The heap of `heapEw` after the old 128-byte block is freed. -/
def heapD (P os : Nat) : Heap :=
  { pageSize := P
    regions := [{ base := P
                  pages := 16
                  large := false
                  blocks := [mkFree P 160,
                             mkUsed (P + 160) 160 128,
                             { addr := P + 160 + 160, total := 288, payload := 256,
                               free := false,
                               data := resizeData (testPattern 128) 256 },
                             mkFree (P + 160 + 160 + 288)
                               (16 * P - 160 - 160 - 288)] }]
    nextBase := P + 16 * P
    osPages := os - 16 }

/-- Large-block regions of a registry hold exactly one in-use block. -/
def LargeOkR (rs : List Region) : Prop :=
  ∀ r ∈ rs, r.large = true → ∃ b, r.blocks = [b] ∧ b.free = false

/-- Large-block regions of a heap hold exactly one in-use block. -/
def LargeOk (h : Heap) : Prop := LargeOkR h.regions

/-- The accounting invariant of the driver: the outstanding user pointers of
the heap are exactly the live pointers (as a multiset), and large regions
are single-block. -/
def LiveInv (h : Heap) (L : List Nat) : Prop :=
  (inUsePtrs h).Perm L ∧ LargeOk h

/-! ## Lemmas: failure leaves the heap untouched -/

lemma gorilla_malloc_none {h : Heap} {n : Nat} {h' : Heap}
    (he : gorilla_malloc h n = (h', none)) : h' = h := by
  simp only [gorilla_malloc] at he
  split at he
  · split at he
    · simp at he
    · injection he with h1 h2
      exact h1.symm
  · split at he
    · simp at he
    · split at he
      · simp at he
      · injection he with h1 h2
        exact h1.symm

lemma gorilla_realloc_none {h : Heap} {p n : Nat} {h' : Heap}
    (he : gorilla_realloc h p n = (h', none)) : h' = h := by
  simp only [gorilla_realloc] at he
  split at he
  · exact gorilla_malloc_none he
  · split at he
    · simp at he
    · split at he
      · simp at he
      · injection he with h1 h2
        exact h1.symm
      · split at he
        · simp at he
        · injection he with h1 h2
          exact h1.symm ▸ gorilla_malloc_none (by assumption)

/-! ## Lemmas: the marked-memory test helpers -/

lemma markMem_len (p size : Nat) : (markMem p size).len = (size - SIZEOF_MARKED_MEM) / 8 := rfl

lemma markMem_getD {p size i : Nat} (hi : i < (markMem p size).len) :
    (markMem p size).mem.getD i 0 = (markMem p size).slotAddr i := by
  simp only [markMem, MarkedMem.slotAddr] at hi ⊢
  rw [List.getD_eq_getElem?_getD, List.getElem?_map, List.getElem?_range hi]
  rfl

lemma check_marked_mem_iff (m : MarkedMem) :
    check_marked_mem m = true ↔ ∀ i < m.len, m.mem.getD i 0 = m.slotAddr i := by
  simp [check_marked_mem, List.all_eq_true, List.mem_range]

lemma malloc_and_mark_eq {h : Heap} {size : Nat} {h' : Heap} {m : MarkedMem}
    (he : malloc_and_mark h size = (h', some m)) : ∃ p, m = markMem p size := by
  simp only [malloc_and_mark] at he
  split at he
  · simp at he
  · split at he
    · injection he with h1 h2
      exact ⟨_, (Option.some.inj h2).symm⟩
    · simp at he

lemma realloc_and_remark_eq {h : Heap} {mm : MarkedMem} {size : Nat} {h' : Heap}
    {m : MarkedMem} (he : realloc_and_remark h mm size = (h', some m)) :
    ∃ p, m = markMem p size := by
  simp only [realloc_and_remark] at he
  split at he
  · simp at he
  · split at he
    · injection he with h1 h2
      exact ⟨_, (Option.some.inj h2).symm⟩
    · simp at he

/-! ## Claim theorems: C8, C9, C10 -/

/-- C8: `gorilla_heap_destroy` returns zero (success) for every heap,
unconditionally — including when in-use blocks remain outstanding — after
releasing every region the heap still owns. -/
theorem claim_C8_destroy_returns_zero_unconditionally :
    ∀ h : Heap, (gorilla_heap_destroy h).1 = 0 ∧ (gorilla_heap_destroy h).2.regions = [] :=
  fun _ => ⟨rfl, rfl⟩

/-- C9: every allocate or reallocate that fails with OutOfMemory (a null
return) leaves the heap exactly as it was before the call; in particular the
block passed to a failed reallocate, with its payload contents, is
untouched. -/
theorem claim_C9_oom_failure_leaves_heap_unchanged :
    ∀ (h : Heap) (n p : Nat),
      ((gorilla_malloc h n).2 = none → (gorilla_malloc h n).1 = h) ∧
      ((gorilla_realloc h p n).2 = none → (gorilla_realloc h p n).1 = h) := by
  intro h n p
  constructor
  · intro hn
    exact @gorilla_malloc_none h n (gorilla_malloc h n).1 (by rw [← hn])
  · intro hn
    exact @gorilla_realloc_none h p n (gorilla_realloc h p n).1 (by rw [← hn])

/-- Witness for C9: with an exhausted OS page budget, both allocate and
reallocate fail and return the heap unchanged. -/
theorem claim_C9_oom_failure_leaves_heap_unchanged_witness :
    (gorilla_malloc (gorilla_heap_init 4096 0) 256).1 = gorilla_heap_init 4096 0 ∧
    (gorilla_realloc (gorilla_heap_init 4096 0) 0 256).1 = gorilla_heap_init 4096 0 :=
  ⟨(claim_C9_oom_failure_leaves_heap_unchanged (gorilla_heap_init 4096 0) 256 0).1
      (by decide),
   (claim_C9_oom_failure_leaves_heap_unchanged (gorilla_heap_init 4096 0) 256 0).2
      (by decide)⟩

/-- C10: a non-null block returned by `malloc_and_mark` or
`realloc_and_remark` has `len = (size - sizeof(struct marked_mem)) / sizeof(void*)`
and every slot `mem[i]` holds its own address, so `check_marked_mem` returns
true; and `check_marked_mem` returns true exactly when every slot holds its
own address. -/
theorem claim_C10_marked_mem_selfcheck :
    (∀ (h : Heap) (size : Nat) (h' : Heap) (m : MarkedMem),
      malloc_and_mark h size = (h', some m) →
        m.len = (size - SIZEOF_MARKED_MEM) / 8 ∧
        (∀ i < m.len, m.mem.getD i 0 = m.slotAddr i) ∧
        check_marked_mem m = true) ∧
    (∀ (h : Heap) (mm : MarkedMem) (size : Nat) (h' : Heap) (m : MarkedMem),
      realloc_and_remark h mm size = (h', some m) →
        m.len = (size - SIZEOF_MARKED_MEM) / 8 ∧
        (∀ i < m.len, m.mem.getD i 0 = m.slotAddr i) ∧
        check_marked_mem m = true) ∧
    (∀ m : MarkedMem, check_marked_mem m = true ↔
      ∀ i < m.len, m.mem.getD i 0 = m.slotAddr i) := by
  refine ⟨?_, ?_, check_marked_mem_iff⟩
  · intro h size h' m he
    obtain ⟨p, rfl⟩ := malloc_and_mark_eq he
    exact ⟨markMem_len p size, fun i hi => markMem_getD hi,
      (check_marked_mem_iff _).2 fun i hi => markMem_getD hi⟩
  · intro h mm size h' m he
    obtain ⟨p, rfl⟩ := realloc_and_remark_eq he
    exact ⟨markMem_len p size, fun i hi => markMem_getD hi,
      (check_marked_mem_iff _).2 fun i hi => markMem_getD hi⟩

/-- Witness for C10: a concrete 64-byte marked allocation on a fresh heap
has 7 self-addressed slots and passes the check. -/
theorem claim_C10_marked_mem_selfcheck_witness :
    (markMem 4128 64).len = 7 ∧ check_marked_mem (markMem 4128 64) = true := by
  have h := claim_C10_marked_mem_selfcheck.1 (gorilla_heap_init 4096 64) 64
    ((malloc_and_mark (gorilla_heap_init 4096 64) 64).1) (markMem 4128 64) (by decide)
  exact ⟨h.1.trans (by decide), h.2.2⟩

/-! ## Lemmas: outstanding pointers of block chains and registries -/

lemma inUsePtrsB_append (bs bs' : List Block) :
    inUsePtrsB (bs ++ bs') = inUsePtrsB bs ++ inUsePtrsB bs' := by
  induction bs with
  | nil => rfl
  | cons b bs ih =>
    simp only [List.cons_append, inUsePtrsB]
    split <;> simp [ih]

lemma inUsePtrsR_append (rs rs' : List Region) :
    inUsePtrsR (rs ++ rs') = inUsePtrsR rs ++ inUsePtrsR rs' := by
  induction rs with
  | nil => rfl
  | cons r rs ih => simp [inUsePtrsR, ih]

lemma mem_inUsePtrsB_ge {bs : List Block} {x : Nat} (hx : x ∈ inUsePtrsB bs) :
    HDR ≤ x := by
  induction bs with
  | nil => cases hx
  | cons b bs ih =>
    simp only [inUsePtrsB] at hx
    split at hx
    · exact ih hx
    · rcases List.mem_cons.1 hx with h | h
      · omega
      · exact ih h

lemma mem_inUsePtrsR_ge {rs : List Region} {x : Nat} (hx : x ∈ inUsePtrsR rs) :
    HDR ≤ x := by
  induction rs with
  | nil => cases hx
  | cons r rs ih =>
    simp only [inUsePtrsR] at hx
    rcases List.mem_append.1 hx with h | h
    · exact mem_inUsePtrsB_ge h
    · exact ih h

lemma inUsePtrsB_coalesce (bs : List Block) :
    inUsePtrsB (coalesce bs) = inUsePtrsB bs := by
  induction bs with
  | nil => rfl
  | cons b bs ih =>
    simp only [coalesce]
    split
    · rename_i heq
      rw [heq] at ih
      simp only [inUsePtrsB] at ih ⊢
      split <;> simp [← ih]
    · rename_i b2 rest heq
      rw [heq] at ih
      split
      · rename_i hcond
        obtain ⟨hbf, hb2f, -⟩ := hcond
        simp only [inUsePtrsB, mergeBlk, mkFree, hbf, if_true] at ih ⊢
        rw [← ih]
        simp [hb2f]
      · simp only [inUsePtrsB, ← ih]

lemma inUsePtrsB_markFree {p : Nat} {bs : List Block} (hp : p ∈ inUsePtrsB bs) :
    inUsePtrsB (markFree p bs) = (inUsePtrsB bs).erase p := by
  induction bs with
  | nil => cases hp
  | cons b bs ih =>
    simp only [markFree]
    split
    · rename_i hcond
      obtain ⟨hbf, hba⟩ := hcond
      simp [inUsePtrsB, mkFree, hbf, hba]
    · rename_i hcond
      by_cases hbf : b.free = true
      · simp only [inUsePtrsB, hbf, if_true] at hp ⊢
        exact ih hp
      · have hbf' : b.free = false := by
          cases hb : b.free
          · rfl
          · exact absurd hb hbf
        have hne : b.addr + HDR ≠ p := fun hh => hcond ⟨hbf', hh⟩
        simp only [inUsePtrsB, hbf', Bool.false_eq_true, if_false] at hp ⊢
        rcases List.mem_cons.1 hp with h | h
        · exact absurd h.symm hne
        · rw [ih h, List.erase_cons_tail]
          simp [hne]

lemma inUsePtrsB_splitBlock (b : Block) (B n : Nat) :
    inUsePtrsB (splitBlock b B n) = [b.addr + HDR] := by
  simp only [splitBlock]
  split <;> simp [inUsePtrsB, mkUsed, mkFree]

lemma overwrite_free (b : Block) (bs : List Nat) : (overwrite b bs).free = b.free := rfl

lemma overwrite_addr (b : Block) (bs : List Nat) : (overwrite b bs).addr = b.addr := rfl

lemma inUsePtrsB_writeBytesB (p : Nat) (bs : List Nat) (bl : List Block) :
    inUsePtrsB (writeBytesB p bs bl) = inUsePtrsB bl := by
  induction bl with
  | nil => rfl
  | cons b bl ih =>
    simp only [writeBytesB]
    split
    · simp [inUsePtrsB, overwrite]
    · simp only [inUsePtrsB]
      split <;> rw [ih]

lemma inUsePtrsR_writeBytesR (p : Nat) (bs : List Nat) (rs : List Region) :
    inUsePtrsR (writeBytesR p bs rs) = inUsePtrsR rs := by
  induction rs with
  | nil => rfl
  | cons r rs ih =>
    simp only [writeBytesR]
    split <;> simp [inUsePtrsR, inUsePtrsB_writeBytesB, ih]

lemma inUsePtrs_writeBytes (h : Heap) (p : Nat) (bs : List Nat) :
    inUsePtrs (writeBytes h p bs) = inUsePtrs h := by
  simp [writeBytes, inUsePtrs, inUsePtrsR_writeBytesR]

/-! ## Lemmas: allocation adds exactly the returned pointer -/

lemma allocInBlocks_perm {B n : Nat} {bs bs' : List Block} {p : Nat}
    (he : allocInBlocks B n bs = some (bs', p)) :
    (inUsePtrsB bs').Perm (p :: inUsePtrsB bs) ∧ HDR ≤ p := by
  induction bs generalizing bs' p with
  | nil => simp [allocInBlocks] at he
  | cons b bs ih =>
    simp only [allocInBlocks] at he
    split at he
    · rename_i hcond
      injection he with hpair
      injection hpair with h1 h2
      subst h1 h2
      rw [inUsePtrsB_append, inUsePtrsB_splitBlock]
      refine ⟨?_, Nat.le_add_left _ _⟩
      simp only [inUsePtrsB, hcond.1, if_true, List.singleton_append]
      exact List.Perm.refl _
    · split at he
      · rename_i bs2 p2 heq
        injection he with hpair
        injection hpair with h1 h2
        subst h1 h2
        obtain ⟨hperm, hge⟩ := ih heq
        refine ⟨?_, hge⟩
        simp only [inUsePtrsB]
        split
        · exact hperm
        · exact (hperm.cons _).trans (List.Perm.swap _ _ _)
      · exact absurd he (by simp)

lemma allocInRegions_perm {B n : Nat} {rs rs' : List Region} {p : Nat}
    (he : allocInRegions B n rs = some (rs', p)) :
    (inUsePtrsR rs').Perm (p :: inUsePtrsR rs) ∧ HDR ≤ p := by
  induction rs generalizing rs' p with
  | nil => simp [allocInRegions] at he
  | cons r rs ih =>
    simp only [allocInRegions] at he
    split at he
    · rename_i bs2 p2 heq
      injection he with hpair
      injection hpair with h1 h2
      subst h1 h2
      obtain ⟨hperm, hge⟩ := allocInBlocks_perm heq
      refine ⟨?_, hge⟩
      simp only [inUsePtrsR]
      exact hperm.append_right _
    · split at he
      · rename_i rs2 p2 heq
        injection he with hpair
        injection hpair with h1 h2
        subst h1 h2
        obtain ⟨hperm, hge⟩ := ih heq
        refine ⟨?_, hge⟩
        simp only [inUsePtrsR]
        exact (List.Perm.append_left _ hperm).trans List.perm_middle
      · exact absurd he (by simp)

lemma gorilla_malloc_some {h : Heap} {n : Nat} {h' : Heap} {p : Nat}
    (he : gorilla_malloc h n = (h', some p)) :
    (inUsePtrs h').Perm (p :: inUsePtrs h) ∧ HDR ≤ p := by
  simp only [gorilla_malloc] at he
  split at he
  · split at he
    · injection he with h1 h2
      subst h1
      injection h2 with h2
      subst h2
      refine ⟨?_, Nat.le_add_left _ _⟩
      simp only [inUsePtrs, inUsePtrsR_append]
      simp [inUsePtrsR, inUsePtrsB, mkUsed]
    · exact absurd he (by simp)
  · split at he
    · rename_i rs2 p2 heq
      injection he with h1 h2
      subst h1
      injection h2 with h2
      subst h2
      exact allocInRegions_perm heq
    · split at he
      · injection he with h1 h2
        subst h1
        injection h2 with h2
        subst h2
        refine ⟨?_, Nat.le_add_left _ _⟩
        simp only [inUsePtrs, inUsePtrsR_append]
        simp [inUsePtrsR, inUsePtrsB_splitBlock, mkFree]
      · exact absurd he (by simp)

/-! ## Lemmas: free removes exactly the freed pointer -/

lemma freeInRegions_inUse {p : Nat} {rs : List Region}
    (hp : p ∈ inUsePtrsR rs) (hL : LargeOkR rs) :
    inUsePtrsR (freeInRegions p rs) = (inUsePtrsR rs).erase p := by
  induction rs with
  | nil => cases hp
  | cons r rs ih =>
    simp only [freeInRegions]
    split
    · rename_i hmem
      split
      · rename_i hlarge
        obtain ⟨b, hbs, hbf⟩ := hL r (List.mem_cons_self _ _) hlarge
        have hone : inUsePtrsB r.blocks = [b.addr + HDR] := by
          simp [hbs, inUsePtrsB, hbf]
        rw [hone] at hmem
        have hpe : p = b.addr + HDR := by simpa using hmem
        simp [inUsePtrsR, hone, ← hpe]
      · simp only [inUsePtrsR, inUsePtrsB_coalesce, inUsePtrsB_markFree hmem]
        rw [List.erase_append_left _ hmem]
    · rename_i hmem
      have hp' : p ∈ inUsePtrsR rs := by
        simp only [inUsePtrsR] at hp
        rcases List.mem_append.1 hp with h | h
        · exact absurd h hmem
        · exact h
      have hL' : LargeOkR rs := fun r' hr' => hL r' (List.mem_cons_of_mem _ hr')
      simp only [inUsePtrsR, ih hp' hL']
      rw [List.erase_append_right _ (by simpa using hmem)]

lemma gorilla_free_inUse {h : Heap} {p : Nat}
    (hp : p ∈ inUsePtrs h) (hL : LargeOk h) :
    inUsePtrs (gorilla_free h p) = (inUsePtrs h).erase p := by
  have hpos : p ≠ 0 := by
    have := mem_inUsePtrsR_ge hp
    simp only [HDR] at this
    omega
  simp only [gorilla_free, hpos, if_false]
  exact freeInRegions_inUse hp hL

/-! ## Lemmas: large regions stay single-block -/

lemma allocInRegions_largeOk {B n : Nat} {rs rs' : List Region} {p : Nat}
    (hL : LargeOkR rs) (he : allocInRegions B n rs = some (rs', p)) :
    LargeOkR rs' := by
  induction rs generalizing rs' p with
  | nil => simp [allocInRegions] at he
  | cons r rs ih =>
    simp only [allocInRegions] at he
    split at he
    · rename_i bs2 p2 heq
      injection he with hpair
      injection hpair with h1 h2
      subst h1
      intro r' hr' hlarge
      rcases List.mem_cons.1 hr' with h | h
      · subst h
        obtain ⟨b, hbs, hbf⟩ := hL r (List.mem_cons_self _ _) hlarge
        rw [hbs] at heq
        simp [allocInBlocks, hbf] at heq
      · exact hL r' (List.mem_cons_of_mem _ h) hlarge
    · split at he
      · rename_i rs2 p2 heq
        injection he with hpair
        injection hpair with h1 h2
        subst h1
        intro r' hr' hlarge
        rcases List.mem_cons.1 hr' with h | h
        · exact hL r' (h ▸ List.mem_cons_self _ _) hlarge
        · exact ih (fun x hx => hL x (List.mem_cons_of_mem _ hx)) heq r' h hlarge
      · exact absurd he (by simp)

lemma gorilla_malloc_largeOk {h : Heap} {n : Nat} (hL : LargeOk h) :
    LargeOk (gorilla_malloc h n).1 := by
  simp only [gorilla_malloc]
  split
  · split
    · intro r hr hlarge
      rcases List.mem_append.1 hr with hm | hm
      · exact hL r hm hlarge
      · simp only [List.mem_singleton] at hm
        subst hm
        exact ⟨_, rfl, rfl⟩
    · exact hL
  · split
    · rename_i rs2 p2 heq
      exact allocInRegions_largeOk hL heq
    · split
      · intro r hr hlarge
        rcases List.mem_append.1 hr with hm | hm
        · exact hL r hm hlarge
        · simp only [List.mem_singleton] at hm
          subst hm
          simp at hlarge
      · exact hL

lemma freeInRegions_largeOk {p : Nat} {rs : List Region} (hL : LargeOkR rs) :
    LargeOkR (freeInRegions p rs) := by
  induction rs with
  | nil => exact fun r hr => absurd hr (List.not_mem_nil r)
  | cons r rs ih =>
    simp only [freeInRegions]
    have hLr : LargeOkR rs := fun x hx => hL x (List.mem_cons_of_mem _ hx)
    split
    · split
      · exact hLr
      · rename_i hnl
        intro r' hr' hlarge
        rcases List.mem_cons.1 hr' with h | h
        · subst h
          simp only at hlarge
          exact absurd hlarge hnl
        · exact hLr r' h hlarge
    · intro r' hr' hlarge
      rcases List.mem_cons.1 hr' with h | h
      · exact hL r' (h ▸ List.mem_cons_self _ _) hlarge
      · exact ih hLr r' h hlarge

lemma gorilla_free_largeOk {h : Heap} {p : Nat} (hL : LargeOk h) :
    LargeOk (gorilla_free h p) := by
  simp only [gorilla_free]
  split
  · exact hL
  · exact freeInRegions_largeOk hL

lemma writeBytesR_largeOk {p : Nat} {bs : List Nat} {rs : List Region}
    (hL : LargeOkR rs) : LargeOkR (writeBytesR p bs rs) := by
  induction rs with
  | nil => exact fun r hr => absurd hr (List.not_mem_nil r)
  | cons r rs ih =>
    simp only [writeBytesR]
    have hLr : LargeOkR rs := fun x hx => hL x (List.mem_cons_of_mem _ hx)
    split
    · intro r' hr' hlarge
      rcases List.mem_cons.1 hr' with h | h
      · subst h
        simp only at hlarge
        obtain ⟨b, hbs, hbf⟩ := hL r (List.mem_cons_self _ _) hlarge
        refine ⟨if b.free = false ∧ b.addr + HDR = p then overwrite b bs else b, ?_, ?_⟩
        · simp only [hbs, writeBytesB]
          split <;> simp [*]
        · split <;> simp [overwrite_free, hbf]
      · exact hLr r' h hlarge
    · intro r' hr' hlarge
      rcases List.mem_cons.1 hr' with h | h
      · exact hL r' (h ▸ List.mem_cons_self _ _) hlarge
      · exact ih hLr r' h hlarge

lemma writeBytes_largeOk {h : Heap} {p : Nat} {bs : List Nat} (hL : LargeOk h) :
    LargeOk (writeBytes h p bs) :=
  writeBytesR_largeOk hL

/-! ## Lemmas: in-place reallocation keeps the outstanding pointers -/

lemma reallocInBlocks_inPlace_inUse {p B n : Nat} {bs bs' : List Block}
    (he : reallocInBlocks p B n bs = .inPlace bs') :
    inUsePtrsB bs' = inUsePtrsB bs := by
  induction bs generalizing bs' with
  | nil => simp [reallocInBlocks] at he
  | cons b bs ih =>
    simp only [reallocInBlocks] at he
    split at he
    · rename_i hcond
      obtain ⟨hbf, hba⟩ := hcond
      split at he
      · split at he
        · injection he with h1
          subst h1
          simp [inUsePtrsB, hbf, inUsePtrsB_coalesce, mkFree]
        · injection he with h1
          subst h1
          simp [inUsePtrsB, hbf]
      · split at he
        · rename_i b2 rest
          split at he
          · split at he
            · injection he with h1
              subst h1
              rename_i hcond2 _
              simp [inUsePtrsB, hbf, mkFree, hcond2.1]
            · injection he with h1
              subst h1
              rename_i hcond2 _
              simp [inUsePtrsB, hbf, hcond2.1]
          · simp at he
        · simp at he
    · split at he
      · simp at he
      · rename_i bs2 heq
        injection he with h1
        subst h1
        simp only [inUsePtrsB, ih heq]
      · simp at he

lemma reallocInRegion_inPlace_inUse {p B n : Nat} {r : Region} {bs' : List Block}
    (he : reallocInRegion p B n r = .inPlace bs') :
    inUsePtrsB bs' = inUsePtrsB r.blocks := by
  simp only [reallocInRegion] at he
  split at he
  · split at he
    · rename_i b heq
      split at he
      · rename_i hcond
        split at he
        · injection he with h1
          subst h1
          simp [heq, inUsePtrsB, hcond.1]
        · simp at he
      · simp at he
    · simp at he
  · exact reallocInBlocks_inPlace_inUse he

lemma reallocInRegions_inPlace_inUse {p B n : Nat} {rs rs' : List Region}
    (he : reallocInRegions p B n rs = .inPlace rs') :
    inUsePtrsR rs' = inUsePtrsR rs := by
  induction rs generalizing rs' with
  | nil => simp [reallocInRegions] at he
  | cons r rs ih =>
    simp only [reallocInRegions] at he
    split at he
    · rename_i bs2 heq
      injection he with h1
      subst h1
      simp only [inUsePtrsR, reallocInRegion_inPlace_inUse heq]
    · simp at he
    · split at he
      · simp at he
      · rename_i rs2 heq2
        injection he with h1
        subst h1
        simp only [inUsePtrsR, ih heq2]
      · simp at he

lemma reallocInRegions_inPlace_largeOk {p B n : Nat} {rs rs' : List Region}
    (hL : LargeOkR rs) (he : reallocInRegions p B n rs = .inPlace rs') :
    LargeOkR rs' := by
  induction rs generalizing rs' with
  | nil => simp [reallocInRegions] at he
  | cons r rs ih =>
    have hLr : LargeOkR rs := fun x hx => hL x (List.mem_cons_of_mem _ hx)
    simp only [reallocInRegions] at he
    split at he
    · rename_i bs2 heq
      injection he with h1
      subst h1
      intro r' hr' hlarge
      rcases List.mem_cons.1 hr' with h | h
      · subst h
        simp only at hlarge ⊢
        obtain ⟨b, hbs, hbf⟩ := hL r (List.mem_cons_self _ _) hlarge
        simp only [reallocInRegion, hlarge, if_true, hbs] at heq
        split at heq
        · rename_i hcond
          split at heq
          · injection heq with h2
            exact ⟨_, h2.symm, hbf⟩
          · simp at heq
        · simp at heq
      · exact hLr r' h hlarge
    · simp at he
    · split at he
      · simp at he
      · rename_i rs2 heq2
        injection he with h1
        subst h1
        intro r' hr' hlarge
        rcases List.mem_cons.1 hr' with h | h
        · exact hL r' (h ▸ List.mem_cons_self _ _) hlarge
        · exact ih hLr heq2 r' h hlarge
      · simp at he

/-! ## Lemmas: reallocation replaces the old pointer with the new one -/

lemma cons_erase_perm {q p : Nat} {l : List Nat} (hp : p ∈ l) :
    ((q :: l).erase p).Perm (q :: l.erase p) := by
  by_cases hqp : q = p
  · subst hqp
    rw [List.erase_cons_head]
    exact List.perm_cons_erase hp
  · rw [List.erase_cons_tail (by simpa using fun h => hqp h)]

lemma gorilla_realloc_some {h : Heap} {p n : Nat} {h' : Heap} {q : Nat}
    (hn : n ≠ 0) (hp : p ∈ inUsePtrs h) (hL : LargeOk h)
    (he : gorilla_realloc h p n = (h', some q)) :
    (inUsePtrs h').Perm (q :: (inUsePtrs h).erase p) ∧ LargeOk h' ∧ HDR ≤ q := by
  have hp0 : p ≠ 0 := by
    have := mem_inUsePtrsR_ge hp
    simp only [HDR] at this
    omega
  simp only [gorilla_realloc, hp0, if_false, hn] at he
  split at he
  · rename_i rs2 heq
    injection he with h1 h2
    subst h1
    injection h2 with h2
    subst h2
    refine ⟨?_, reallocInRegions_inPlace_largeOk hL heq, mem_inUsePtrsR_ge hp⟩
    have : inUsePtrs { h with regions := rs2 } = inUsePtrs h :=
      reallocInRegions_inPlace_inUse heq
    rw [this]
    exact List.perm_cons_erase hp
  · exact absurd he (by simp)
  · rename_i oldD heq0
    split at he
    · rename_i h1 q2 hm
      injection he with he1 he2
      subst he1
      injection he2 with he2
      subst he2
      obtain ⟨hperm1, hge⟩ := gorilla_malloc_some hm
      have hLm : LargeOk h1 := by
        have := @gorilla_malloc_largeOk h n hL
        rw [hm] at this
        exact this
      have hw : inUsePtrs (writeBytes h1 q2 (resizeData oldD n)) = inUsePtrs h1 :=
        inUsePtrs_writeBytes _ _ _
      have hLw : LargeOk (writeBytes h1 q2 (resizeData oldD n)) := writeBytes_largeOk hLm
      have hpw : p ∈ inUsePtrs (writeBytes h1 q2 (resizeData oldD n)) := by
        rw [hw]
        exact hperm1.symm.subset (List.mem_cons_of_mem _ hp)
      refine ⟨?_, gorilla_free_largeOk hLw, hge⟩
      rw [gorilla_free_inUse hpw hLw, hw]
      exact (hperm1.erase _).trans (cons_erase_perm hp)
    · exact absurd he (by simp)

/-! ## Lemmas: the driver invariant -/

lemma runOp_inv {s : Heap × List Nat} {op : Op} (hI : LiveInv s.1 s.2) :
    LiveInv (runOp s op).1 (runOp s op).2 := by
  obtain ⟨h, L⟩ := s
  obtain ⟨hperm, hL⟩ := hI
  cases op with
  | alloc n =>
    simp only [runOp]
    split
    · rename_i h1 p hm
      have hm' : gorilla_malloc h n = (h1, some p) := hm
      obtain ⟨hp1, -⟩ := gorilla_malloc_some hm'
      have hLm : LargeOk h1 := by
        have := @gorilla_malloc_largeOk h n hL
        rw [hm'] at this
        exact this
      exact ⟨hp1.trans (hperm.cons _), hLm⟩
    · rename_i h1 hm
      have hm' : gorilla_malloc h n = (h1, none) := hm
      have : h1 = h := gorilla_malloc_none hm'
      subst this
      exact ⟨hperm, hL⟩
  | free p =>
    simp only [runOp]
    split
    · rename_i hmem
      have hpin : p ∈ inUsePtrs h := hperm.mem_iff.2 hmem
      refine ⟨?_, gorilla_free_largeOk hL⟩
      rw [gorilla_free_inUse hpin hL]
      exact hperm.erase _
    · exact ⟨hperm, hL⟩
  | reall p n =>
    simp only [runOp]
    split
    · rename_i hcond
      split
      · rename_i h1 q hm
        have hpin : p ∈ inUsePtrs h := hperm.mem_iff.2 hcond.1
        obtain ⟨hp1, hL1, -⟩ := gorilla_realloc_some hcond.2 hpin hL hm
        exact ⟨hp1.trans ((hperm.erase _).cons _), hL1⟩
      · rename_i h1 hm
        have : h1 = h := gorilla_realloc_none hm
        subst this
        exact ⟨hperm, hL⟩
    · exact ⟨hperm, hL⟩

lemma runOps_inv (P os : Nat) (ops : List Op) :
    LiveInv (runOps P os ops).1 (runOps P os ops).2 := by
  suffices hgen : ∀ (s : Heap × List Nat), LiveInv s.1 s.2 →
      LiveInv (ops.foldl runOp s).1 (ops.foldl runOp s).2 by
    refine hgen _ ⟨?_, ?_⟩
    · exact List.Perm.refl _
    · exact fun r hr => absurd hr (List.not_mem_nil r)
  induction ops with
  | nil => exact fun s hs => hs
  | cons op ops ih =>
    intro s hs
    exact ih _ (runOp_inv hs)

/-! ## Claim theorem: C2 -/

/-- C2: for every sequence of allocate/reallocate/free requests on a single
heap that starts empty, the leak enumeration started with a null cursor
returns the terminal marker (null) exactly when every live pointer has been
freed — in particular it is empty whenever the trace ends with everything
freed. -/
theorem claim_C2_check_leaks_empty_iff_all_freed :
    ∀ (P os : Nat) (ops : List Op),
      gorilla_malloc_check_leaks (runOps P os ops).1 none = none ↔
        (runOps P os ops).2 = [] := by
  intro P os ops
  obtain ⟨hperm, -⟩ := runOps_inv P os ops
  simp only [gorilla_malloc_check_leaks, List.head?_eq_none_iff]
  constructor
  · intro hnil
    rw [hnil] at hperm
    exact hperm.symm.eq_nil
  · intro hnil
    rw [hnil] at hperm
    exact hperm.eq_nil

/-! ## Lemmas: arithmetic of sizes -/

lemma le_alignUp (m : Nat) : m ≤ alignUp m := by
  have hmd := Nat.mod_add_div (m + 7) 8
  have hlt : (m + 7) % 8 < 8 := Nat.mod_lt _ (by norm_num)
  simp only [alignUp, WORD]
  omega

lemma alignUp_of_dvd {m : Nat} (h : (8 : Nat) ∣ m) : alignUp m = m := by
  obtain ⟨k, rfl⟩ := h
  simp only [alignUp, WORD]
  rw [Nat.mul_add_div (by norm_num)]
  simp [Nat.mul_comm]

lemma blockSize_ge (n : Nat) : MIN_BLOCK ≤ blockSize n := by
  have h1 : MIN_BLOCK ≤ HDR + max n MIN_PAYLOAD := by
    simp only [MIN_BLOCK, HDR, MIN_PAYLOAD]
    omega
  exact h1.trans (le_alignUp _)

lemma blockSize_eq {n : Nat} (h8 : (8 : Nat) ∣ n) (hn : 8 ≤ n) :
    blockSize n = HDR + n := by
  have hmax : max n MIN_PAYLOAD = n := by
    simp only [MIN_PAYLOAD]
    omega
  simp only [blockSize, hmax]
  refine alignUp_of_dvd ?_
  simp only [HDR]
  omega

lemma ceilDiv_eq_one {a b : Nat} (ha : 0 < a) (hab : a ≤ b) : ceilDiv a b = 1 := by
  show (a + b - 1) / b = 1
  exact Nat.div_eq_of_lt_le (by omega) (by omega)

lemma ceilDiv_mul_ge {a b : Nat} (hb : 0 < b) : a ≤ ceilDiv a b * b := by
  simp only [ceilDiv]
  rw [Nat.mul_comm]
  have hmd := Nat.mod_add_div (a + b - 1) b
  have hlt : (a + b - 1) % b < b := Nat.mod_lt _ hb
  omega

lemma resizeData_length (l : List Nat) (n : Nat) : (resizeData l n).length = n := by
  simp only [resizeData, List.length_append, List.length_take, List.length_replicate]
  omega

lemma resizeData_replicate (k n : Nat) :
    resizeData (List.replicate k 0) n = List.replicate n 0 := by
  simp only [resizeData, List.take_replicate, List.length_replicate]
  rw [← List.replicate_add]
  congr 1
  omega

lemma testPattern_length (n : Nat) : (testPattern n).length = n := by
  simp [testPattern]

lemma malloc128_init {P os : Nat} (h8 : (8 : Nat) ∣ P) (hP : 1024 ≤ P)
    (hos : 16 ≤ os) :
    gorilla_malloc (gorilla_heap_init P os) 128 = (heapA P os, some (P + HDR)) := by
  have hB : blockSize 128 = 160 := by decide
  have hc : ceilDiv 160 (16 * P) = 1 := ceilDiv_eq_one (by norm_num) (by omega)
  simp only [gorilla_malloc, gorilla_heap_init, hB, arenaThreshold, ARENA_PAGES]
  rw [if_neg (by omega : ¬ 4 * P < 160)]
  rw [hc]
  simp only [allocInRegions, Nat.mul_one]
  rw [if_pos hos]
  simp only [splitBlock, mkFree, MIN_BLOCK, HDR, MIN_PAYLOAD]
  rw [if_pos (by omega : 32 + 8 ≤ 16 * P - 160)]
  simp [heapA, mkUsed, mkFree, HDR]

lemma realloc_grow_heapA {P os : Nat} (hP : 1024 ≤ P) :
    gorilla_realloc (heapA P os) (P + HDR) 256 = (heapB P os, some (P + HDR)) := by
  have hB : blockSize 256 = 288 := by decide
  simp only [gorilla_realloc, hB, HDR]
  rw [if_neg (by omega : ¬ P + 32 = 0)]
  rw [if_neg (by norm_num : ¬ (256 : Nat) = 0)]
  simp only [heapA, reallocInRegions, reallocInRegion, reallocInBlocks, mkUsed, mkFree,
    MIN_BLOCK, HDR, MIN_PAYLOAD]
  rw [if_neg (by decide : ¬ (288 : Nat) ≤ 160)]
  rw [if_pos (⟨trivial, trivial, by omega⟩ : True ∧ True ∧ 288 ≤ 160 + (16 * P - 160))]
  rw [if_pos (by omega : 32 + 8 ≤ 160 + (16 * P - 160) - 288)]
  simp only [Bool.false_eq_true, Bool.true_eq_false, false_and, if_false, and_self, if_true]
  simp only [heapB, mkUsed, mkFree, resizeData_replicate, HDR]
  rw [show 160 + (16 * P - 160) - 288 = 16 * P - 288 from by omega]

/-! ## Lemmas: reading back written payload bytes -/

lemma findInUseB_writeBytesB (p : Nat) (bs : List Nat) (bl : List Block) :
    findInUseB p (writeBytesB p bs bl) =
      (findInUseB p bl).map (fun b => overwrite b bs) := by
  induction bl with
  | nil => rfl
  | cons b bl ih =>
    simp only [writeBytesB, findInUseB]
    split
    · rename_i hcond
      simp [findInUseB, overwrite, hcond.1, hcond.2]
    · rename_i hcond
      simp only [findInUseB]
      rw [if_neg hcond]
      exact ih

lemma findInUse_writeBytes (h : Heap) (p : Nat) (bs : List Nat) :
    findInUse (writeBytes h p bs) p =
      (findInUse h p).map (fun b => overwrite b bs) := by
  simp only [findInUse, writeBytes]
  induction h.regions with
  | nil => rfl
  | cons r rs ih =>
    simp only [writeBytesR]
    split
    · rename_i b0 heq
      simp only [findInUseR, findInUseB_writeBytesB, heq]
      rfl
    · rename_i heq
      simp only [findInUseR, heq]
      exact ih

lemma readBytes_writeBytes {h : Heap} {p n : Nat} {b : Block}
    (hf : findInUse h p = some b) (hpl : n ≤ b.payload)
    {pat : List Nat} (hlen : pat.length = n) :
    readBytes (writeBytes h p pat) p n = pat := by
  simp only [readBytes, findInUse_writeBytes, hf, Option.map_some', overwrite]
  have htake : pat.take b.payload = pat := List.take_of_length_le (by omega)
  rw [htake, List.take_left' hlen]

lemma mem_test_of_find {h : Heap} {p n : Nat} {b : Block}
    (hf : findInUse h p = some b) (hn : n ≤ b.payload) : mem_test h p n = true := by
  simp only [mem_test]
  rw [readBytes_writeBytes hf hn (testPattern_length n)]
  simp

/-! ## Claim theorem: C3 -/

/-- C3: on a fresh heap, after `d = allocate(128)`, reallocating `d` to 256
returns a non-null pointer equal to `d` (in-place growth into the trailing
free neighbor), and all 256 bytes of the grown block can be written and read
back. -/
theorem claim_C3_realloc_grows_in_place (P os : Nat) (h8 : (8 : Nat) ∣ P)
    (hP : 1024 ≤ P) (hos : 16 ≤ os) :
    ∃ h1 h2 d, gorilla_malloc (gorilla_heap_init P os) 128 = (h1, some d) ∧
      gorilla_realloc h1 d 256 = (h2, some d) ∧ mem_test h2 d 256 = true := by
  refine ⟨heapA P os, heapB P os, P + HDR, malloc128_init h8 hP hos,
    realloc_grow_heapA hP, ?_⟩
  refine @mem_test_of_find _ _ _ (mkUsed P 288 256) ?_ Nat.le.refl
  simp only [findInUse, heapB, findInUseR, findInUseB, mkUsed]
  rw [if_pos ⟨trivial, trivial⟩]

/-- Witness for C3 at the standard 4096-byte page size. -/
theorem claim_C3_realloc_grows_in_place_witness :
    ∃ h1 h2 d, gorilla_malloc (gorilla_heap_init 4096 64) 128 = (h1, some d) ∧
      gorilla_realloc h1 d 256 = (h2, some d) ∧ mem_test h2 d 256 = true :=
  claim_C3_realloc_grows_in_place 4096 64 (by norm_num) (by norm_num) (by norm_num)

lemma mallocP_init {P os : Nat} (h8 : (8 : Nat) ∣ P) (hP : 1024 ≤ P)
    (hos : 16 ≤ os) :
    gorilla_malloc (gorilla_heap_init P os) P = (heapAp P os, some (P + HDR)) := by
  have hB : blockSize P = HDR + P := blockSize_eq h8 (by omega)
  have hc : ceilDiv (32 + P) (16 * P) = 1 := ceilDiv_eq_one (by omega) (by omega)
  simp only [gorilla_malloc, gorilla_heap_init, hB, arenaThreshold, ARENA_PAGES, HDR]
  rw [if_neg (by omega : ¬ 4 * P < 32 + P)]
  rw [hc]
  simp only [allocInRegions, Nat.mul_one]
  rw [if_pos hos]
  simp only [splitBlock, mkFree, MIN_BLOCK, HDR, MIN_PAYLOAD]
  rw [if_pos (by omega : 32 + 8 ≤ 16 * P - (32 + P))]
  simp [heapAp, mkUsed, mkFree, HDR]

lemma realloc_shrink_heapAp {P os : Nat} (hP : 1024 ≤ P) :
    gorilla_realloc (heapAp P os) (P + HDR) 128 = (heapA P os, some (P + HDR)) := by
  have hB : blockSize 128 = 160 := by decide
  simp only [gorilla_realloc, hB, HDR]
  rw [if_neg (by omega : ¬ P + 32 = 0)]
  rw [if_neg (by norm_num : ¬ (128 : Nat) = 0)]
  simp only [heapAp, reallocInRegions, reallocInRegion, reallocInBlocks, mkUsed, mkFree,
    MIN_BLOCK, HDR, MIN_PAYLOAD]
  rw [if_pos (by omega : (160 : Nat) ≤ 32 + P)]
  rw [if_pos (by omega : 32 + 8 ≤ 32 + P - 160)]
  simp only [Bool.false_eq_true, Bool.true_eq_false, false_and, if_false, and_self, if_true]
  simp only [coalesce, mergeBlk, mkFree]
  rw [if_pos ⟨trivial, trivial, by omega⟩]
  simp only [resizeData_replicate]
  simp only [heapA, mkUsed, mkFree, HDR]
  rw [show 32 + P - 160 + (16 * P - (32 + P)) = 16 * P - 160 from by omega]

set_option maxRecDepth 4000 in
lemma malloc128_heapA {P os : Nat} (hP : 1024 ≤ P) :
    gorilla_malloc (heapA P os) 128 = (heapA2 P os, some (P + 160 + HDR)) := by
  have hB : blockSize 128 = 160 := by decide
  simp only [gorilla_malloc, heapA, arenaThreshold, hB]
  rw [if_neg (by omega : ¬ 4 * P < 160)]
  simp only [allocInRegions, allocInBlocks, mkUsed, mkFree, splitBlock, MIN_BLOCK, HDR,
    MIN_PAYLOAD]
  simp only [Bool.false_eq_true, false_and, if_false]
  rw [if_pos (⟨trivial, by omega⟩ : True ∧ 160 ≤ 16 * P - 160)]
  rw [if_pos (by omega : 32 + 8 ≤ 16 * P - 160 - 160)]
  simp only [heapA2, mkUsed, mkFree, HDR, List.append_nil]

lemma realloc_grow4_heapAp {P os : Nat} (h8 : (8 : Nat) ∣ P) (hP : 1024 ≤ P) :
    gorilla_realloc (heapAp P os) (P + HDR) (4 * P) = (heapC P os, some (P + HDR)) := by
  have hB : blockSize (4 * P) = HDR + 4 * P := blockSize_eq (h8.mul_left 4) (by omega)
  simp only [gorilla_realloc, hB, HDR]
  rw [if_neg (by omega : ¬ P + 32 = 0)]
  rw [if_neg (by omega : ¬ 4 * P = 0)]
  simp only [heapAp, reallocInRegions, reallocInRegion, reallocInBlocks, mkUsed, mkFree,
    MIN_BLOCK, HDR, MIN_PAYLOAD]
  rw [if_neg (by omega : ¬ 32 + 4 * P ≤ 32 + P)]
  rw [if_pos (⟨trivial, trivial, by omega⟩ :
    True ∧ True ∧ 32 + 4 * P ≤ 32 + P + (16 * P - (32 + P)))]
  rw [if_pos (by omega : 32 + 8 ≤ 32 + P + (16 * P - (32 + P)) - (32 + 4 * P))]
  simp only [Bool.false_eq_true, Bool.true_eq_false, false_and, if_false, and_self, if_true]
  simp only [resizeData_replicate]
  simp only [heapC, mkUsed, mkFree, HDR]
  rw [show 32 + P + (16 * P - (32 + P)) - (32 + 4 * P) = 12 * P - 32 from by omega]

/-! ## Claim theorems: C4, C7 -/

/-- C4: on a fresh heap, after `d = allocate(page_size)`, reallocating `d`
down to 128 returns the same pointer `d` (in-place shrink splitting off a
trailing free block), and the address returned by a subsequent
`allocate(128)` lies strictly within `[d, d + page_size)`. -/
theorem claim_C4_realloc_shrinks_in_place (P os : Nat) (h8 : (8 : Nat) ∣ P)
    (hP : 1024 ≤ P) (hos : 16 ≤ os) :
    ∃ h1 h2 h3 d next,
      gorilla_malloc (gorilla_heap_init P os) P = (h1, some d) ∧
      gorilla_realloc h1 d 128 = (h2, some d) ∧
      gorilla_malloc h2 128 = (h3, some next) ∧
      d < next ∧ next < d + P := by
  refine ⟨heapAp P os, heapA P os, heapA2 P os, P + HDR, P + 160 + HDR,
    mallocP_init h8 hP hos, realloc_shrink_heapAp hP, malloc128_heapA hP, ?_, ?_⟩
  · simp only [HDR]
    omega
  · simp only [HDR]
    omega

/-- Witness for C4 at the standard 4096-byte page size. -/
theorem claim_C4_realloc_shrinks_in_place_witness :
    ∃ h1 h2 h3 d next,
      gorilla_malloc (gorilla_heap_init 4096 64) 4096 = (h1, some d) ∧
      gorilla_realloc h1 d 128 = (h2, some d) ∧
      gorilla_malloc h2 128 = (h3, some next) ∧
      d < next ∧ next < d + 4096 :=
  claim_C4_realloc_shrinks_in_place 4096 64 (by norm_num) (by norm_num) (by norm_num)

/-- C7: on a fresh heap, after `d = allocate(page_size)`, reallocating `d`
to `4 * page_size` returns a non-null pointer equal to `d` (growth in place
into the trailing free neighbor, not a move or a dedicated large-block
region), and all `4 * page_size` bytes can be written and read back. -/
theorem claim_C7_realloc_four_pages_in_place (P os : Nat) (h8 : (8 : Nat) ∣ P)
    (hP : 1024 ≤ P) (hos : 16 ≤ os) :
    ∃ h1 h2 d, gorilla_malloc (gorilla_heap_init P os) P = (h1, some d) ∧
      gorilla_realloc h1 d (4 * P) = (h2, some d) ∧
      mem_test h2 d (4 * P) = true := by
  refine ⟨heapAp P os, heapC P os, P + HDR, mallocP_init h8 hP hos,
    realloc_grow4_heapAp h8 hP, ?_⟩
  refine @mem_test_of_find _ _ _ (mkUsed P (32 + 4 * P) (4 * P)) ?_ Nat.le.refl
  simp only [findInUse, heapC, findInUseR, findInUseB, mkUsed]
  rw [if_pos ⟨trivial, trivial⟩]

/-- Witness for C7 at the standard 4096-byte page size. -/
theorem claim_C7_realloc_four_pages_in_place_witness :
    ∃ h1 h2 d, gorilla_malloc (gorilla_heap_init 4096 64) 4096 = (h1, some d) ∧
      gorilla_realloc h1 d (4 * 4096) = (h2, some d) ∧
      mem_test h2 d (4 * 4096) = true :=
  claim_C7_realloc_four_pages_in_place 4096 64 (by norm_num) (by norm_num) (by norm_num)

lemma free_b1_heapA2 {P os : Nat} (hP : 1024 ≤ P) :
    gorilla_free (heapA2 P os) (P + HDR) = heapF1 P os := by
  simp only [gorilla_free, HDR]
  rw [if_neg (by omega : ¬ P + 32 = 0)]
  simp only [heapA2, freeInRegions, inUsePtrsB, mkUsed, mkFree, HDR]
  simp only [Bool.false_eq_true, Bool.true_eq_false, if_false, if_true]
  rw [if_pos (List.mem_cons_self _ _)]
  simp only [markFree, mkFree]
  rw [if_pos ⟨trivial, rfl⟩]
  simp only [coalesce, mergeBlk]
  rw [if_neg (by simp)]
  dsimp only
  rw [if_neg (by simp)]
  simp only [heapF1, mkUsed, mkFree, HDR]

lemma free_b2_heapF1 {P os : Nat} (hP : 1024 ≤ P) :
    gorilla_free (heapF1 P os) (P + 160 + HDR) = heapF2 P os := by
  simp only [gorilla_free, HDR]
  rw [if_neg (by omega : ¬ P + 160 + 32 = 0)]
  simp only [heapF1, freeInRegions, inUsePtrsB, mkUsed, mkFree, HDR]
  simp only [Bool.false_eq_true, Bool.true_eq_false, if_false, if_true]
  rw [if_pos (List.mem_cons_self _ _)]
  simp only [markFree, mkFree]
  rw [if_neg (by simp)]
  rw [if_pos ⟨trivial, rfl⟩]
  simp only [coalesce, mergeBlk]
  rw [if_pos ⟨trivial, trivial, trivial⟩]
  dsimp only
  rw [if_pos ⟨trivial, rfl, rfl⟩]
  simp only [heapF2, mkUsed, mkFree, HDR]

set_option maxRecDepth 4000 in
lemma malloc128_heapF2 {P os : Nat} (hP : 1024 ≤ P) :
    (gorilla_malloc (heapF2 P os) 128).2 = some (P + HDR) := by
  have hB : blockSize 128 = 160 := by decide
  simp only [gorilla_malloc, heapF2, arenaThreshold, hB]
  rw [if_neg (by omega : ¬ 4 * P < 160)]
  simp only [allocInRegions, allocInBlocks, mkFree]
  rw [if_pos (⟨trivial, by omega⟩ : True ∧ 160 ≤ 160 + (160 + (16 * P - 160 - 160)))]

/-! ## Claim theorem: C6 -/

/-- C6: on a fresh heap, after `b1 = allocate(128)`, `b2 = allocate(128)`,
`free(b1)`, `free(b2)`, the freed blocks are coalesced and reused: some
allocation within 128 attempts of a run of repeated `allocate(128)` calls
returns exactly the original address `b1` (here the very first one). -/
theorem claim_C6_coalesced_blocks_reused (P os : Nat) (h8 : (8 : Nat) ∣ P)
    (hP : 1024 ≤ P) (hos : 16 ≤ os) :
    ∃ h1 h2 b1 b2,
      gorilla_malloc (gorilla_heap_init P os) 128 = (h1, some b1) ∧
      gorilla_malloc h1 128 = (h2, some b2) ∧
      ∃ i, i < 128 ∧
        (allocRun (gorilla_free (gorilla_free h2 b1) b2) i).2 = some b1 := by
  refine ⟨heapA P os, heapA2 P os, P + HDR, P + 160 + HDR,
    malloc128_init h8 hP hos, malloc128_heapA hP, 0, by omega, ?_⟩
  rw [free_b1_heapA2 hP, free_b2_heapF1 hP]
  simp only [allocRun]
  exact malloc128_heapF2 hP

/-- Witness for C6 at the standard 4096-byte page size. -/
theorem claim_C6_coalesced_blocks_reused_witness :
    ∃ h1 h2 b1 b2,
      gorilla_malloc (gorilla_heap_init 4096 64) 128 = (h1, some b1) ∧
      gorilla_malloc h1 128 = (h2, some b2) ∧
      ∃ i, i < 128 ∧
        (allocRun (gorilla_free (gorilla_free h2 b1) b2) i).2 = some b1 :=
  claim_C6_coalesced_blocks_reused 4096 64 (by norm_num) (by norm_num) (by norm_num)

/-! ## Lemmas: well-formed heaps and the freshly allocated block -/

lemma blocksWf_le_end {bs : List Block} :
    ∀ {cur : Nat}, blocksWf cur bs = true → cur ≤ blocksEnd cur bs := by
  induction bs with
  | nil => intro cur _; exact Nat.le.refl
  | cons b bs ih =>
    intro cur hwf
    simp only [blocksWf, Bool.and_eq_true, decide_eq_true_eq] at hwf
    obtain ⟨⟨⟨ha, ht⟩, -⟩, hrest⟩ := hwf
    simp only [blocksEnd]
    have := ih hrest
    subst ha
    simp only [MIN_BLOCK, HDR, MIN_PAYLOAD] at ht
    omega

lemma findInUseB_none_of_le {bs : List Block} :
    ∀ {cur pp : Nat}, blocksWf cur bs = true → blocksEnd cur bs + HDR ≤ pp →
      findInUseB pp bs = none := by
  induction bs with
  | nil => intro cur pp _ _; rfl
  | cons b bs ih =>
    intro cur pp hwf hle
    simp only [blocksWf, Bool.and_eq_true, decide_eq_true_eq] at hwf
    obtain ⟨⟨⟨ha, ht⟩, -⟩, hrest⟩ := hwf
    subst ha
    simp only [blocksEnd] at hle
    have hend := blocksWf_le_end hrest
    simp only [findInUseB]
    rw [if_neg]
    · exact ih hrest hle
    · rintro ⟨-, hpa⟩
      simp only [MIN_BLOCK, HDR, MIN_PAYLOAD] at ht
      simp only [HDR] at hpa hle
      omega

lemma regionsWf_le_bound {rs : List Region} :
    ∀ {bound cur : Nat}, regionsWf bound cur rs = true → cur ≤ bound := by
  induction rs with
  | nil =>
    intro bound cur hwf
    simpa [regionsWf] using hwf
  | cons r rs ih =>
    intro bound cur hwf
    simp only [regionsWf, Bool.and_eq_true, decide_eq_true_eq] at hwf
    obtain ⟨⟨⟨hc, -⟩, hbw⟩, hrest⟩ := hwf
    have h1 := blocksWf_le_end hbw
    have h2 := ih hrest
    omega

lemma findInUseR_none_of_le {rs : List Region} :
    ∀ {bound cur pp : Nat}, regionsWf bound cur rs = true → bound + HDR ≤ pp →
      findInUseR pp rs = none := by
  induction rs with
  | nil => intro _ _ _ _ _; rfl
  | cons r rs ih =>
    intro bound cur pp hwf hle
    simp only [regionsWf, Bool.and_eq_true, decide_eq_true_eq] at hwf
    obtain ⟨⟨⟨hc, -⟩, hbw⟩, hrest⟩ := hwf
    have hend : blocksEnd r.base r.blocks ≤ bound := regionsWf_le_bound hrest
    simp only [findInUseR]
    rw [findInUseB_none_of_le hbw (by simp only [HDR] at hle ⊢; omega)]
    exact ih hrest hle

lemma findInUseR_append_none {pp : Nat} {rs rs' : List Region}
    (h : findInUseR pp rs = none) :
    findInUseR pp (rs ++ rs') = findInUseR pp rs' := by
  induction rs with
  | nil => rfl
  | cons r rs ih =>
    simp only [findInUseR] at h
    split at h
    · exact absurd h (by simp)
    · rename_i heq
      simp only [List.cons_append, findInUseR, heq]
      exact ih h

lemma singleUsed_eq {bs : List Block} (h : singleUsed bs = true) :
    ∃ b, bs = [b] ∧ b.free = false := by
  match bs with
  | [] => simp [singleUsed] at h
  | [b] =>
    simp only [singleUsed, Bool.not_eq_true'] at h
    exact ⟨b, rfl, h⟩
  | b :: b2 :: rest => simp [singleUsed] at h

lemma regionsWf_largeOk {rs : List Region} :
    ∀ {bound cur : Nat}, regionsWf bound cur rs = true → LargeOkR rs := by
  induction rs with
  | nil => intro _ _ _ r hr; exact absurd hr (List.not_mem_nil r)
  | cons r rs ih =>
    intro bound cur hwf r' hr' hlarge
    simp only [regionsWf, Bool.and_eq_true, decide_eq_true_eq] at hwf
    obtain ⟨⟨⟨-, hl⟩, -⟩, hrest⟩ := hwf
    rcases List.mem_cons.1 hr' with h | h
    · subst h
      rw [hlarge] at hl
      simp only [Bool.not_true, Bool.false_or] at hl
      exact singleUsed_eq hl
    · exact ih hrest r' h hlarge

lemma heapWf_largeOk {h : Heap} (hwf : heapWf h = true) : LargeOk h := by
  simp only [heapWf, Bool.and_eq_true] at hwf
  exact regionsWf_largeOk hwf.2

lemma allocInBlocks_find {B n : Nat} {bs bs' : List Block} {p : Nat} :
    ∀ {cur : Nat}, blocksWf cur bs = true → allocInBlocks B n bs = some (bs', p) →
      (∃ t, findInUseB p bs' = some (mkUsed (p - HDR) t n)) ∧ cur + HDR ≤ p := by
  induction bs generalizing bs' p with
  | nil => intro cur _ he; simp [allocInBlocks] at he
  | cons b bs ih =>
    intro cur hwf he
    simp only [blocksWf, Bool.and_eq_true, decide_eq_true_eq] at hwf
    obtain ⟨⟨⟨ha, ht⟩, -⟩, hrest⟩ := hwf
    subst ha
    simp only [allocInBlocks] at he
    split at he
    · injection he with hpair
      injection hpair with h1 h2
      subst h1 h2
      refine ⟨?_, Nat.le.refl⟩
      simp only [splitBlock]
      split
      · refine ⟨B, ?_⟩
        simp only [List.cons_append, findInUseB, mkUsed, Nat.add_sub_cancel]
        rw [if_pos (by simp)]
      · refine ⟨b.total, ?_⟩
        simp only [List.cons_append, findInUseB, mkUsed, Nat.add_sub_cancel]
        rw [if_pos (by simp)]
    · split at he
      · rename_i bs2 p2 heq
        injection he with hpair
        injection hpair with h1 h2
        subst h1 h2
        obtain ⟨⟨t, hfind⟩, hge⟩ := ih hrest heq
        refine ⟨⟨t, ?_⟩, ?_⟩
        · simp only [findInUseB]
          rw [if_neg]
          · exact hfind
          · rintro ⟨-, hpa⟩
            simp only [MIN_BLOCK, HDR, MIN_PAYLOAD] at ht
            simp only [HDR] at hpa hge
            omega
        · simp only [MIN_BLOCK, HDR, MIN_PAYLOAD] at ht
          simp only [HDR] at hge ⊢
          omega
      · exact absurd he (by simp)

lemma allocInRegions_find {B n : Nat} {rs rs' : List Region} {p : Nat} :
    ∀ {bound cur : Nat}, regionsWf bound cur rs = true →
      allocInRegions B n rs = some (rs', p) →
      (∃ t, findInUseR p rs' = some (mkUsed (p - HDR) t n)) ∧ cur + HDR ≤ p := by
  induction rs generalizing rs' p with
  | nil => intro _ _ _ he; simp [allocInRegions] at he
  | cons r rs ih =>
    intro bound cur hwf he
    simp only [regionsWf, Bool.and_eq_true, decide_eq_true_eq] at hwf
    obtain ⟨⟨⟨hc, -⟩, hbw⟩, hrest⟩ := hwf
    simp only [allocInRegions] at he
    split at he
    · rename_i bs2 p2 heq
      injection he with hpair
      injection hpair with h1 h2
      subst h1 h2
      obtain ⟨⟨t, hfind⟩, hge⟩ := allocInBlocks_find hbw heq
      refine ⟨⟨t, ?_⟩, ?_⟩
      · simp only [findInUseR]
        rw [hfind]
      · simp only [HDR] at hge ⊢
        omega
    · split at he
      · rename_i rs2 p2 heq
        injection he with hpair
        injection hpair with h1 h2
        subst h1 h2
        obtain ⟨⟨t, hfind⟩, hge⟩ := ih hrest heq
        have hnone : findInUseB p2 r.blocks = none := by
          refine findInUseB_none_of_le hbw ?_
          simp only [HDR] at hge ⊢
          omega
        refine ⟨⟨t, ?_⟩, ?_⟩
        · simp only [findInUseR]
          rw [hnone]
          exact hfind
        · have h1 := blocksWf_le_end hbw
          simp only [HDR] at hge ⊢
          omega
      · exact absurd he (by simp)

lemma gorilla_malloc_find {h : Heap} {n : Nat} {h' : Heap} {p : Nat}
    (hwf : heapWf h = true) (he : gorilla_malloc h n = (h', some p)) :
    ∃ t, findInUse h' p = some (mkUsed (p - HDR) t n) := by
  simp only [heapWf, Bool.and_eq_true, decide_eq_true_eq] at hwf
  obtain ⟨-, hrw⟩ := hwf
  simp only [gorilla_malloc] at he
  split at he
  · split at he
    · injection he with h1 h2
      subst h1
      injection h2 with h2
      subst h2
      refine ⟨ceilDiv (blockSize n) h.pageSize * h.pageSize, ?_⟩
      simp only [findInUse]
      rw [findInUseR_append_none (findInUseR_none_of_le hrw Nat.le.refl)]
      simp only [findInUseR, findInUseB, mkUsed, Nat.add_sub_cancel]
      rw [if_pos (by simp)]
    · exact absurd he (by simp)
  · split at he
    · rename_i rs2 p2 heq
      injection he with h1 h2
      subst h1
      injection h2 with h2
      subst h2
      exact (allocInRegions_find hrw heq).1
    · split at he
      · injection he with h1 h2
        subst h1
        injection h2 with h2
        subst h2
        have hsp : ∃ t, findInUseB (h.nextBase + HDR)
            (splitBlock (mkFree h.nextBase
              (ARENA_PAGES * ceilDiv (blockSize n) (ARENA_PAGES * h.pageSize) * h.pageSize))
              (blockSize n) n) = some (mkUsed h.nextBase t n) := by
          simp only [splitBlock]
          split
          · refine ⟨blockSize n, ?_⟩
            simp only [List.cons_append, findInUseB, mkUsed, mkFree]
            rw [if_pos (by simp)]
          · refine ⟨ARENA_PAGES * ceilDiv (blockSize n) (ARENA_PAGES * h.pageSize) *
                h.pageSize, ?_⟩
            simp only [findInUseB, mkUsed, mkFree]
            rw [if_pos (by simp)]
        obtain ⟨t, ht⟩ := hsp
        refine ⟨t, ?_⟩
        simp only [findInUse]
        rw [findInUseR_append_none (findInUseR_none_of_le hrw Nat.le.refl)]
        simp only [findInUseR]
        rw [ht, Nat.add_sub_cancel]
      · exact absurd he (by simp)

/-! ## Claim theorem: C1 -/

/-- C1: for every block returned by `gorilla_malloc` on a well-formed heap,
writing any byte pattern to the `n` requested payload bytes and reading them
back yields the same pattern; the witness exercises the sizes used by the
tests, `n = 256`, `n = 2 * page_size` and `n = 8 * page_size` (large path). -/
theorem claim_C1_malloc_payload_roundtrip :
    ∀ (h : Heap) (n : Nat) (h' : Heap) (p : Nat),
      heapWf h = true → gorilla_malloc h n = (h', some p) →
      ∀ pat : List Nat, pat.length = n →
        readBytes (writeBytes h' p pat) p n = pat := by
  intro h n h' p hwf he pat hlen
  obtain ⟨t, hfind⟩ := gorilla_malloc_find hwf he
  exact readBytes_writeBytes hfind Nat.le.refl hlen

/-- Witness for C1: the pattern `i % 256` written through a fresh allocation
of 256, `2 * 4096` and `8 * 4096` bytes reads back unchanged. -/
theorem claim_C1_malloc_payload_roundtrip_witness :
    readBytes (writeBytes (gorilla_malloc (gorilla_heap_init 4096 64) 256).1 4128
      (testPattern 256)) 4128 256 = testPattern 256 ∧
    readBytes (writeBytes (gorilla_malloc (gorilla_heap_init 4096 64) 8192).1 4128
      (testPattern 8192)) 4128 8192 = testPattern 8192 ∧
    readBytes (writeBytes (gorilla_malloc (gorilla_heap_init 4096 64) 32768).1 4128
      (testPattern 32768)) 4128 32768 = testPattern 32768 :=
  ⟨claim_C1_malloc_payload_roundtrip (gorilla_heap_init 4096 64) 256
      (gorilla_malloc (gorilla_heap_init 4096 64) 256).1 4128 (by decide) rfl
      (testPattern 256) (by simp [testPattern]),
   claim_C1_malloc_payload_roundtrip (gorilla_heap_init 4096 64) 8192
      (gorilla_malloc (gorilla_heap_init 4096 64) 8192).1 4128 (by decide) rfl
      (testPattern 8192) (by simp [testPattern]),
   claim_C1_malloc_payload_roundtrip (gorilla_heap_init 4096 64) 32768
      (gorilla_malloc (gorilla_heap_init 4096 64) 32768).1 4128 (by decide) rfl
      (testPattern 32768) (by simp [testPattern])⟩

/-! ## Lemmas: a moving reallocate copies the old payload -/

lemma reallocInBlocks_notFound {p B n : Nat} {bs : List Block}
    (he : reallocInBlocks p B n bs = .notFound) : findInUseB p bs = none := by
  induction bs with
  | nil => rfl
  | cons b bs ih =>
    simp only [reallocInBlocks] at he
    split at he
    · rename_i hcond
      split at he
      · split at he <;> simp at he
      · split at he
        · rename_i b2 rest
          split at he
          · split at he <;> simp at he
          · simp at he
        · simp at he
    · rename_i hcond
      simp only [findInUseB]
      rw [if_neg hcond]
      split at he
      · rename_i heq
        exact ih heq
      · simp at he
      · simp at he

lemma reallocInBlocks_needsMove {p B n : Nat} {bs : List Block} {d : List Nat}
    (he : reallocInBlocks p B n bs = .needsMove d) :
    ∃ b, findInUseB p bs = some b ∧ b.data = d := by
  induction bs with
  | nil => simp [reallocInBlocks] at he
  | cons b bs ih =>
    simp only [reallocInBlocks] at he
    split at he
    · rename_i hcond
      refine ⟨b, ?_, ?_⟩
      · simp only [findInUseB]
        rw [if_pos hcond]
      · split at he
        · split at he <;> simp at he
        · split at he
          · split at he
            · split at he <;> simp at he
            · injection he with h1
          · injection he with h1
    · rename_i hcond
      split at he
      · simp at he
      · simp at he
      · rename_i heq
        injection he with h1
        subst h1
        obtain ⟨b0, hfb, hdata⟩ := ih heq
        refine ⟨b0, ?_, hdata⟩
        simp only [findInUseB]
        rw [if_neg hcond]
        exact hfb

lemma reallocInRegion_notFound {p B n : Nat} {r : Region}
    (hL : r.large = true → ∃ b, r.blocks = [b] ∧ b.free = false)
    (he : reallocInRegion p B n r = .notFound) : findInUseB p r.blocks = none := by
  simp only [reallocInRegion] at he
  split at he
  · rename_i hlarge
    obtain ⟨b, hbs, -⟩ := hL hlarge
    rw [hbs] at he ⊢
    simp only [findInUseB]
    split at he
    · rename_i b2 hcond2
      obtain rfl : b = b2 := by injection hcond2
      split at he
      · split at he <;> simp at he
      · rename_i hcond3
        rw [if_neg hcond3]
    · rename_i hcond2
      exact absurd rfl (hcond2 b)
  · exact reallocInBlocks_notFound he

lemma reallocInRegion_needsMove {p B n : Nat} {r : Region} {d : List Nat}
    (he : reallocInRegion p B n r = .needsMove d) :
    ∃ b, findInUseB p r.blocks = some b ∧ b.data = d := by
  simp only [reallocInRegion] at he
  split at he
  · split at he
    · rename_i b heq
      split at he
      · rename_i hcond
        split at he
        · simp at he
        · injection he with h1
          subst h1
          refine ⟨b, ?_, rfl⟩
          rw [heq]
          simp only [findInUseB]
          rw [if_pos hcond]
      · simp at he
    · simp at he
  · exact reallocInBlocks_needsMove he

lemma reallocInRegions_needsMove {p B n : Nat} {rs : List Region} {d : List Nat}
    (hL : LargeOkR rs) (he : reallocInRegions p B n rs = .needsMove d) :
    ∃ b, findInUseR p rs = some b ∧ b.data = d := by
  induction rs with
  | nil => simp [reallocInRegions] at he
  | cons r rs ih =>
    simp only [reallocInRegions] at he
    split at he
    · simp at he
    · rename_i heq
      injection he with h1
      subst h1
      obtain ⟨b, hfb, hdata⟩ := reallocInRegion_needsMove heq
      refine ⟨b, ?_, hdata⟩
      simp only [findInUseR]
      rw [hfb]
    · rename_i heq
      split at he
      · simp at he
      · simp at he
      · rename_i heq2
        injection he with h1
        subst h1
        obtain ⟨b, hfb, hdata⟩ :=
          ih (fun x hx => hL x (List.mem_cons_of_mem _ hx)) heq2
        refine ⟨b, ?_, hdata⟩
        simp only [findInUseR]
        rw [reallocInRegion_notFound (hL r (List.mem_cons_self _ _)) heq]
        exact hfb

lemma findInUseB_wf {bs : List Block} :
    ∀ {cur p : Nat} {b : Block}, blocksWf cur bs = true →
      findInUseB p bs = some b → b.data.length = b.payload := by
  induction bs with
  | nil => intro _ _ _ _ hf; simp [findInUseB] at hf
  | cons b0 bs ih =>
    intro cur p b hwf hf
    simp only [blocksWf, Bool.and_eq_true, decide_eq_true_eq] at hwf
    obtain ⟨⟨⟨-, -⟩, hd⟩, hrest⟩ := hwf
    simp only [findInUseB] at hf
    split at hf
    · rename_i hcond
      injection hf with h1
      subst h1
      rw [Bool.or_eq_true] at hd
      rcases hd with h | h
      · rw [hcond.1] at h
        cases h
      · exact of_decide_eq_true h
    · exact ih hrest hf

lemma findInUseR_wf {rs : List Region} :
    ∀ {bound cur p : Nat} {b : Block}, regionsWf bound cur rs = true →
      findInUseR p rs = some b → b.data.length = b.payload := by
  induction rs with
  | nil => intro _ _ _ _ _ hf; simp [findInUseR] at hf
  | cons r rs ih =>
    intro bound cur p b hwf hf
    simp only [regionsWf, Bool.and_eq_true, decide_eq_true_eq] at hwf
    obtain ⟨⟨⟨-, -⟩, hbw⟩, hrest⟩ := hwf
    simp only [findInUseR] at hf
    split at hf
    · rename_i b2 heq
      injection hf with h1
      subst h1
      exact findInUseB_wf hbw heq
    · exact ih hrest hf

lemma findInUse_wf {h : Heap} {p : Nat} {b : Block} (hwf : heapWf h = true)
    (hf : findInUse h p = some b) : b.data.length = b.payload := by
  simp only [heapWf, Bool.and_eq_true] at hwf
  exact findInUseR_wf hwf.2 hf

lemma findInUseB_zero (bs : List Block) : findInUseB 0 bs = none := by
  induction bs with
  | nil => rfl
  | cons b bs ih =>
    simp only [findInUseB]
    rw [if_neg]
    · exact ih
    · rintro ⟨-, ha⟩
      simp only [HDR] at ha
      omega

lemma findInUse_zero (h : Heap) : findInUse h 0 = none := by
  simp only [findInUse]
  induction h.regions with
  | nil => rfl
  | cons r rs ih =>
    simp only [findInUseR, findInUseB_zero]
    exact ih

lemma readBytes_zero (h : Heap) (p : Nat) : readBytes h p 0 = [] := by
  simp only [readBytes]
  split <;> simp

lemma coalesce_eq_nil {bs : List Block} (h : coalesce bs = []) : bs = [] := by
  cases bs with
  | nil => rfl
  | cons b bs =>
    simp only [coalesce] at h
    split at h
    · simp at h
    · split at h <;> simp at h

lemma findInUseB_coalesce (q : Nat) (bs : List Block) :
    findInUseB q (coalesce bs) = findInUseB q bs := by
  induction bs with
  | nil => rfl
  | cons b bs ih =>
    simp only [coalesce]
    split
    · rename_i heq
      rw [heq] at ih
      have hnil : bs = [] := coalesce_eq_nil heq
      subst hnil
      rfl
    · rename_i b2 rest heq
      rw [heq] at ih
      split
      · rename_i hcond
        obtain ⟨hbf, hb2f, -⟩ := hcond
        simp only [findInUseB, mergeBlk, mkFree] at ih ⊢
        rw [if_neg (by simp), if_neg (by simp [hbf]), ← ih, if_neg (by simp [hb2f])]
      · simp only [findInUseB, ← ih]

lemma findInUseB_markFree_ne {p q : Nat} (hne : q ≠ p) (bs : List Block) :
    findInUseB q (markFree p bs) = findInUseB q bs := by
  induction bs with
  | nil => rfl
  | cons b bs ih =>
    simp only [markFree]
    split
    · rename_i hcond
      simp only [findInUseB, mkFree]
      rw [if_neg (by simp), if_neg]
      rintro ⟨-, ha⟩
      exact hne (ha ▸ hcond.2.symm ▸ rfl)
    · rename_i hcond
      simp only [findInUseB]
      split
      · rfl
      · exact ih

lemma freeInRegions_find_ne {p q : Nat} {rs : List Region} (hne : q ≠ p)
    (hL : LargeOkR rs) : findInUseR q (freeInRegions p rs) = findInUseR q rs := by
  induction rs with
  | nil => rfl
  | cons r rs ih =>
    have hLr : LargeOkR rs := fun x hx => hL x (List.mem_cons_of_mem _ hx)
    simp only [freeInRegions]
    split
    · rename_i hmem
      split
      · rename_i hlarge
        obtain ⟨b, hbs, hbf⟩ := hL r (List.mem_cons_self _ _) hlarge
        have hup : p = b.addr + HDR := by
          rw [hbs] at hmem
          simpa [inUsePtrsB, hbf] using hmem
        simp only [findInUseR, hbs, findInUseB]
        rw [if_neg]
        rintro ⟨-, ha⟩
        exact hne (hup.trans ha).symm
      · simp only [findInUseR, findInUseB_coalesce, findInUseB_markFree_ne hne]
    · simp only [findInUseR, ih hLr]

lemma gorilla_free_find_ne {h : Heap} {p q : Nat} (hne : q ≠ p) (hL : LargeOk h) :
    findInUse (gorilla_free h p) q = findInUse h q := by
  simp only [gorilla_free]
  split
  · rfl
  · exact freeInRegions_find_ne hne hL

lemma overwrite_mkUsed_resize (a t n : Nat) (l : List Nat) :
    overwrite (mkUsed a t n) (resizeData l n) =
      { addr := a, total := t, payload := n, free := false, data := resizeData l n } := by
  simp only [overwrite, mkUsed, resizeData_length, Nat.min_self]
  rw [List.take_of_length_le (by rw [resizeData_length])]
  rw [List.drop_eq_nil_iff.2 (by simp), List.append_nil]

lemma resizeData_take {l : List Nat} {m n : Nat} (hmn : m ≤ n) (hml : m ≤ l.length) :
    (resizeData l n).take m = l.take m := by
  simp only [resizeData]
  rw [List.take_append_of_le_length (by simp only [List.length_take]; omega)]
  rw [List.take_take]
  congr 1
  omega

lemma readBytes_of_find {h : Heap} {p n : Nat} {b : Block}
    (hf : findInUse h p = some b) : readBytes h p n = b.data.take n := by
  simp only [readBytes, hf]

lemma payloadAt_of_find {h : Heap} {p : Nat} {b : Block}
    (hf : findInUse h p = some b) : payloadAt h p = b.payload := by
  simp only [payloadAt, hf]

lemma payloadAt_zero (h : Heap) : payloadAt h 0 = 0 := by
  simp only [payloadAt, findInUse_zero]

lemma gorilla_realloc_move_preserves {h : Heap} {p n : Nat} {h' : Heap} {q : Nat}
    (hwf : heapWf h = true) (he : gorilla_realloc h p n = (h', some q))
    (hqp : q ≠ p) (hn : n ≠ 0) :
    readBytes h' q (min (payloadAt h p) n) = readBytes h p (min (payloadAt h p) n) := by
  by_cases hp0 : p = 0
  · subst hp0
    rw [payloadAt_zero, Nat.min_comm, Nat.min_zero, readBytes_zero, readBytes_zero]
  · simp only [gorilla_realloc] at he
    rw [if_neg hp0, if_neg hn] at he
    split at he
    · injection he with h1 h2
      injection h2 with h2
      exact absurd h2.symm hqp
    · exact absurd he (by simp)
    · rename_i oldD heq0
      split at he
      · rename_i h1 q2 hm
        injection he with he1 he2
        subst he1
        injection he2 with he2
        subst he2
        have hL : LargeOk h := heapWf_largeOk hwf
        obtain ⟨b, hfb, hdata⟩ := reallocInRegions_needsMove hL heq0
        have hfb' : findInUse h p = some b := hfb
        have hlen : b.data.length = b.payload := findInUse_wf hwf hfb'
        obtain ⟨t, hq⟩ := gorilla_malloc_find hwf hm
        have hw : findInUse (writeBytes h1 q2 (resizeData oldD n)) q2 =
            some { addr := q2 - HDR, total := t, payload := n, free := false,
                   data := resizeData oldD n } := by
          rw [findInUse_writeBytes, hq]
          simp only [Option.map_some']
          rw [overwrite_mkUsed_resize]
        have hLm : LargeOk h1 := by
          have hthis := @gorilla_malloc_largeOk h n hL
          rw [hm] at hthis
          exact hthis
        have hLw : LargeOk (writeBytes h1 q2 (resizeData oldD n)) :=
          writeBytes_largeOk hLm
        have hfinal : findInUse
            (gorilla_free (writeBytes h1 q2 (resizeData oldD n)) p) q2 =
            some { addr := q2 - HDR, total := t, payload := n, free := false,
                   data := resizeData oldD n } := by
          rw [gorilla_free_find_ne hqp hLw]
          exact hw
        rw [readBytes_of_find hfinal, readBytes_of_find hfb', payloadAt_of_find hfb']
        subst hdata
        exact resizeData_take (Nat.min_le_right _ _)
          (by rw [hlen]; exact Nat.min_le_left _ _)
      · exact absurd he (by simp)

/-! ## Claim theorem: C5 -/

lemma resizeData_of_length {l : List Nat} {n : Nat} (h : l.length = n) :
    resizeData l n = l := by
  simp only [resizeData, h, Nat.sub_self, List.replicate_zero, List.append_nil]
  exact List.take_of_length_le (by omega)

lemma write_pat_heapA2 {P os : Nat} :
    writeBytes (heapA2 P os) (P + HDR) (testPattern 128) = heapA2w P os := by
  have ht : (testPattern 128).take 128 = testPattern 128 :=
    List.take_of_length_le (testPattern_length 128).le
  have hd : (List.replicate 128 (0 : Nat)).drop 128 = [] := by simp
  simp only [writeBytes, heapA2, writeBytesR, findInUseB, writeBytesB, mkUsed, mkFree,
    overwrite, HDR, testPattern_length, Nat.min_self, and_self, true_and, false_and,
    and_false, Bool.false_eq_true, Bool.true_eq_false, if_true, if_false, ht, hd,
    List.append_nil]
  simp only [heapA2w, mkUsed, mkFree, HDR]

lemma realloc_needsMove_heapA2w {P os : Nat} :
    reallocInRegions (P + HDR) (blockSize 256) 256 (heapA2w P os).regions =
      ReallocResR.needsMove (testPattern 128) := by
  have hB : blockSize 256 = 288 := by decide
  simp only [heapA2w, hB, reallocInRegions, reallocInRegion, reallocInBlocks, mkUsed,
    mkFree, MIN_BLOCK, HDR, MIN_PAYLOAD, Bool.false_eq_true, Bool.true_eq_false,
    false_and, and_false, and_self, true_and, if_true, if_false]
  rw [if_neg (by decide : ¬ (288 : Nat) ≤ 160)]

set_option maxRecDepth 4000 in
lemma malloc256_heapA2w {P os : Nat} (hP : 1024 ≤ P) :
    gorilla_malloc (heapA2w P os) 256 = (heapE P os, some (P + 160 + 160 + HDR)) := by
  have hB : blockSize 256 = 288 := by decide
  simp only [gorilla_malloc, heapA2w, arenaThreshold, hB]
  rw [if_neg (by omega : ¬ 4 * P < 288)]
  simp only [allocInRegions, allocInBlocks, mkUsed, mkFree, splitBlock, MIN_BLOCK, HDR,
    MIN_PAYLOAD]
  simp only [Bool.false_eq_true, false_and, if_false]
  rw [if_pos (⟨trivial, by omega⟩ : True ∧ 288 ≤ 16 * P - 160 - 160)]
  rw [if_pos (by omega : 32 + 8 ≤ 16 * P - 160 - 160 - 288)]
  simp only [heapE, mkUsed, mkFree, HDR, List.append_nil]

lemma write_new_heapE {P os : Nat} :
    writeBytes (heapE P os) (P + 160 + 160 + HDR) (resizeData (testPattern 128) 256) =
      heapEw P os := by
  have h1 : ¬ (P + 32 = P + 160 + 160 + 32) := by omega
  have h2 : ¬ (P + 160 + 32 = P + 160 + 160 + 32) := by omega
  have ht : (resizeData (testPattern 128) 256).take 256 =
      resizeData (testPattern 128) 256 :=
    List.take_of_length_le (resizeData_length (testPattern 128) 256).le
  have hd : (List.replicate 256 (0 : Nat)).drop 256 = [] :=
    List.drop_eq_nil_iff.2 (List.length_replicate _ _).le
  simp only [writeBytes, heapE, writeBytesR, findInUseB, writeBytesB, mkUsed, mkFree,
    HDR, overwrite, h1, h2, true_and, and_self, false_and, and_false,
    Bool.true_eq_false, Bool.false_eq_true, if_true, if_false, resizeData_length,
    Nat.min_self, ht, hd, List.append_nil]
  simp only [heapEw, mkUsed, mkFree, HDR]

lemma free_old_heapEw {P os : Nat} :
    gorilla_free (heapEw P os) (P + HDR) = heapD P os := by
  simp only [gorilla_free, HDR]
  rw [if_neg (by omega : ¬ (P + 32 = 0))]
  simp only [heapEw, freeInRegions, inUsePtrsB, mkUsed, mkFree, HDR, Bool.false_eq_true,
    Bool.true_eq_false, false_and, and_false, and_self, true_and, if_true, if_false]
  rw [if_pos (List.mem_cons_self _ _)]
  simp only [markFree, coalesce, mergeBlk, mkFree, HDR, Bool.false_eq_true,
    Bool.true_eq_false, false_and, and_false, and_self, true_and, if_true, if_false]
  simp only [heapD, mkUsed, mkFree, HDR]

lemma read_new_heapD {P os : Nat} :
    readBytes (heapD P os) (P + 160 + 160 + HDR) 128 = testPattern 128 := by
  have hf : findInUse (heapD P os) (P + 160 + 160 + HDR) =
      some { addr := P + 160 + 160, total := 288, payload := 256, free := false,
             data := resizeData (testPattern 128) 256 } := by
    have h2 : ¬ (P + 160 + 32 = P + 160 + 160 + 32) := by omega
    simp only [findInUse, heapD, findInUseR, findInUseB, mkUsed, mkFree, HDR,
      Bool.true_eq_false, Bool.false_eq_true, false_and, and_false, and_self, true_and,
      if_true, if_false, h2]
  rw [readBytes_of_find hf]
  rw [resizeData_take (by norm_num) (testPattern_length 128).ge]
  exact List.take_of_length_le (testPattern_length 128).le

lemma gorilla_realloc_needsMove_eq {h : Heap} {p n : Nat} {d : List Nat} {h1 : Heap}
    {q : Nat} (hp0 : p ≠ 0) (hn : n ≠ 0)
    (hrm : reallocInRegions p (blockSize n) n h.regions = ReallocResR.needsMove d)
    (hm : gorilla_malloc h n = (h1, some q)) :
    gorilla_realloc h p n =
      (gorilla_free (writeBytes h1 q (resizeData d n)) p, some q) := by
  simp only [gorilla_realloc]
  rw [if_neg hp0, if_neg hn, hrm, hm]

/-- C5: on a fresh heap, after `d1 = allocate(128)` filled with the byte
pattern `i % 256` and a blocking `d2 = allocate(128)`, reallocating `d1` to
256 returns a new address different from `d1` and the first 128 payload bytes
at the new address equal the pattern; in general, a moving reallocate
preserves the first `min(old, new)` payload bytes bit-for-bit. -/
theorem claim_C5_moving_realloc_preserves_bytes (P os : Nat) (h8 : (8 : Nat) ∣ P)
    (hP : 1024 ≤ P) (hos : 16 ≤ os) :
    (∃ h1 h2 h3 d1 d2 q,
      gorilla_malloc (gorilla_heap_init P os) 128 = (h1, some d1) ∧
      gorilla_malloc h1 128 = (h2, some d2) ∧
      gorilla_realloc (writeBytes h2 d1 (testPattern 128)) d1 256 = (h3, some q) ∧
      q ≠ d1 ∧ readBytes h3 q 128 = testPattern 128) ∧
    (∀ (h h' : Heap) (p m q : Nat), heapWf h = true →
      gorilla_realloc h p m = (h', some q) → q ≠ p → m ≠ 0 →
      readBytes h' q (min (payloadAt h p) m) =
        readBytes h p (min (payloadAt h p) m)) := by
  constructor
  · refine ⟨heapA P os, heapA2 P os, heapD P os, P + HDR, P + 160 + HDR,
      P + 160 + 160 + HDR, malloc128_init h8 hP hos, malloc128_heapA hP, ?_, ?_, ?_⟩
    · rw [write_pat_heapA2,
        gorilla_realloc_needsMove_eq (by simp only [HDR]; omega) (by norm_num)
          realloc_needsMove_heapA2w (malloc256_heapA2w hP),
        write_new_heapE, free_old_heapEw]
    · simp only [HDR]
      omega
    · exact read_new_heapD
  · exact fun h h' p m q hwf he hqp hm =>
      gorilla_realloc_move_preserves hwf he hqp hm

/-- Witness for C5 at the standard 4096-byte page size. -/
theorem claim_C5_moving_realloc_preserves_bytes_witness :
    (∃ h1 h2 h3 d1 d2 q,
      gorilla_malloc (gorilla_heap_init 4096 64) 128 = (h1, some d1) ∧
      gorilla_malloc h1 128 = (h2, some d2) ∧
      gorilla_realloc (writeBytes h2 d1 (testPattern 128)) d1 256 = (h3, some q) ∧
      q ≠ d1 ∧ readBytes h3 q 128 = testPattern 128) ∧
    (∀ (h h' : Heap) (p m q : Nat), heapWf h = true →
      gorilla_realloc h p m = (h', some q) → q ≠ p → m ≠ 0 →
      readBytes h' q (min (payloadAt h p) m) =
        readBytes h p (min (payloadAt h p) m)) :=
  claim_C5_moving_realloc_preserves_bytes 4096 64 (by norm_num) (by norm_num)
    (by norm_num)

end Gorilla
